import Mathlib

/-!
Verification of the `rust_kannon` task-graph execution engine.

This development is a shallow embedding of the dependency-resolution and
scheduling core of the repository:

* `src/src/task/task.rs` — tasks and the raw task constructors;
* `src/src/task/group.rs` — groups, group handles and precedence edges;
* `src/src/task/topology.rs` — the freeze step (`Topology::new_from`,
  `create_group_nodes`, `fill_from_list`) and the per-node atomic counters
  (`remained_task_cnt`, `remained_predecessor_cnt`);
* `src/src/worker.rs` — the `SequentialWorker` ready/execute/wait cycle and
  the shared completion protocol;
* `src/src/task/executor.rs` — the `Executor` state machine.

Modelling conventions.  Weak handles are modelled by a `released` flag that is
fixed for the duration of a run (the embedding has no concurrent drops).  The
`u32`/`usize` atomic counters are modelled as `Nat`; the only place where the
wrap-around of `fetch_sub` could be observable is a decrement of a counter
that is already `0`, and the claim proved as `C10` shows that during a
sequential execute cycle over a well-formed acyclic topology every decrement
observes a previous value of at least `1`, so the `Nat` model and the `u32`
model agree on all runs considered here.  The worker state carries two ghost
observation logs, `trace` (the task nodes popped from the FIFO, in order) and
`events` (the counter decrements with the previous value each observed);
they record the observable history and influence nothing.
-/

namespace Kannon

/-- Error enumeration of `src/src/task/error.rs`. -/
inductive TaskError where
  | InvalidChaining
  | InvalidGroupHandle
  | InvalidItemName
  | NoValidatedGroups
  | EmptyWorker
  | AlreadyExecuted
  | AlreadyIdle
deriving DecidableEq, Repr

/-! ## Author-time data model (snapshots used by the freeze step) -/

/-- A task handle as the freeze step sees it: only its liveness
(`TaskHandle::is_released`) matters there. -/
structure TaskH where
  released : Bool
deriving DecidableEq, Repr, Inhabited

/-- A successor entry of `GroupChains::success_groups`: the cached id of the
target group plus the liveness of the weak handle. -/
structure SuccH where
  sgid : Nat
  sreleased : Bool
deriving DecidableEq, Repr, Inhabited

/-- Snapshot of one entry of the `GroupList` as `Topology::new_from` reads it:
the cached group id, the liveness of the handle, the group's task-handle list
and its successor edge list. -/
structure GroupSnap where
  gid : Nat
  released : Bool
  tasks : List TaskH
  succs : List SuccH
deriving DecidableEq, Repr, Inhabited

/-! ## Frozen data model (`src/src/task/topology.rs`) -/

/-- A frozen `TaskNode`: the index of the owning `GroupNode` (the weak
back-pointer), the position of the node inside that group's task-node list
(the identity of the `TaskNode` allocation), whether the node holds the
group's sentinel empty task, and whether the referenced task handle is
released. -/
structure TaskNode where
  gidx : Nat
  tpos : Nat
  sentinel : Bool
  released : Bool
deriving DecidableEq, Repr, Inhabited

/-- A frozen `GroupNode` with its two counters. -/
structure GroupNode where
  gid : Nat
  task_nodes : List TaskNode
  remained_task_cnt : Nat
  successor_idxs : List Nat
  remained_predecessor_cnt : Nat
deriving DecidableEq, Repr, Inhabited

/-- The frozen `Topology`: group nodes, total task count, and the indices of
the root group nodes (weak pointers in the source). -/
structure Topology where
  group_nodes : List GroupNode
  task_count : Nat
  root_idxs : List Nat
deriving DecidableEq, Repr, Inhabited

/-- The group handles that survive the `value_as_ref` check of
`create_group_nodes`: released handles are skipped by `continue`. -/
def liveGroups (gl : List GroupSnap) : List GroupSnap :=
  gl.filter (fun g => !g.released)

/-- The task nodes `create_group_nodes` builds for the group at node index
`i`: one node per non-released task handle, and the single sentinel node
(`handle_of_empty_task`, which is group-owned and hence live) when no live
task remains. -/
def mkTaskNodes (i : Nat) (g : GroupSnap) : List TaskNode :=
  let cnt := (g.tasks.filter (fun t => !t.released)).length
  if cnt = 0 then [⟨i, 0, true, false⟩]
  else (List.range cnt).map (fun p => ⟨i, p, false, false⟩)

/-- The group node as it stands at the end of `create_group_nodes`:
`remained_task_cnt` stores the number of task nodes, the chain fields are
still empty. -/
def mkGroupNode0 (i : Nat) (g : GroupSnap) : GroupNode :=
  ⟨g.gid, mkTaskNodes i g, (mkTaskNodes i g).length, [], 0⟩

/-- `Topology::create_group_nodes`: one node per live group, in list order
(`continue` drops released handles, so node index `i` is the position among
the live groups). -/
def create_group_nodes (gl : List GroupSnap) : List GroupNode :=
  (List.range (liveGroups gl).length).map
    (fun i => mkGroupNode0 i ((liveGroups gl).getD i default))

/-- The successor node indices `fill_from_list` computes for node `i`: it
scans the node list `out` in order and keeps node `j` when `try_lock`
succeeds (which fails exactly for the node `i` itself, whose mutex is held)
and some non-released successor handle of group `i` carries the id of group
`j`. -/
def succIdxsOf (live : List GroupSnap) (i : Nat) : List Nat :=
  (List.range live.length).filter (fun j =>
    (j != i) &&
      (live.getD i default).succs.any
        (fun s => !s.sreleased && s.sgid == (live.getD j default).gid))

/-- One pass of `increase_predecessor_count` calls: each discovered successor
index gets its counter bumped by one. -/
def bumpPreds (c : List Nat) (succl : List Nat) : List Nat :=
  succl.foldl (fun acc j => acc.set j (acc.getD j 0 + 1)) c

/-- The predecessor counters at the end of `fill_from_list`: starting from
zero, every node bumps each of its successors once. -/
def predCounts (live : List GroupSnap) : List Nat :=
  (List.range live.length).foldl
    (fun acc i => bumpPreds acc (succIdxsOf live i))
    (List.replicate live.length 0)

/-- `Topology::fill_from_list`: the nodes of `create_group_nodes` with their
successor lists and predecessor counters filled in. -/
def fillNodes (gl : List GroupSnap) : List GroupNode :=
  let live := liveGroups gl
  (List.range live.length).map (fun i =>
    { mkGroupNode0 i (live.getD i default) with
        successor_idxs := succIdxsOf live i
        remained_predecessor_cnt := (predCounts live).getD i 0 })

/-- The total task count accumulated by `create_group_nodes`. -/
def taskCountOf (gl : List GroupSnap) : Nat :=
  ((create_group_nodes gl).map (fun nd => nd.task_nodes.length)).sum

/-- `Topology::new_from`: fail with `NoValidatedGroups` when the list is
empty or every handle is released, otherwise build the nodes, the task count
and the list of root nodes (`is_ready`, i.e. predecessor counter zero). -/
def new_from (gl : List GroupSnap) : Except TaskError Topology :=
  if gl.isEmpty || gl.all (fun g => g.released) then
    .error .NoValidatedGroups
  else
    let nodes := fillNodes gl
    .ok ⟨nodes, taskCountOf gl,
      (List.range nodes.length).filter
        (fun i => (nodes.getD i default).remained_predecessor_cnt == 0)⟩

/-! ## Author-time mutable group model (`src/src/task/group.rs`) -/

/-- `GroupChains`: the two edge lists, stored as the cached ids of the
handles they hold. -/
structure GroupChainsM where
  precede_groups : List Nat
  success_groups : List Nat
deriving DecidableEq, Repr, Inhabited

/-- The fields of `GroupRaw` that the chaining operations read and write. -/
structure GroupRawM where
  gid : Nat
  chains : GroupChainsM
deriving DecidableEq, Repr, Inhabited

/-- `GroupRaw::has_successors` (note: the source returns
`success_groups.is_empty()`). -/
def has_successors (g : GroupRawM) : Bool :=
  g.chains.success_groups.isEmpty

/-- `GroupRaw::has_predecessors` (note: the source returns
`precede_groups.is_empty()`). -/
def has_predecessors (g : GroupRawM) : Bool :=
  g.chains.precede_groups.isEmpty

/-- `GroupRaw::is_contains_id`: the id occurs in either edge list. -/
def is_contains_id (g : GroupRawM) (id : Nat) : Bool :=
  g.chains.precede_groups.any (fun x => x == id) ||
    g.chains.success_groups.any (fun x => x == id)

/-- Outcome of `Group::precede`: the caller's raw group, the resolved target
group (when the handle resolved), and the error if any. -/
structure PrecedeOut where
  self : GroupRawM
  other : Option GroupRawM
  err : Option TaskError
deriving DecidableEq, Repr

/-- `Group::precede(handle)`.  `hid` is the cached id of the argument handle
and `target` is what the handle resolves to (`None` when released).  The
source checks self-chaining first, then duplicate edges, then handle
validity, and only then pushes `handle` onto `self.success_groups` and the
caller's own handle onto `other.precede_groups`. -/
def precede (self : GroupRawM) (hid : Nat) (target : Option GroupRawM) :
    PrecedeOut :=
  if self.gid == hid then ⟨self, target, some .InvalidChaining⟩
  else if is_contains_id self hid then ⟨self, target, some .InvalidChaining⟩
  else
    match target with
    | none => ⟨self, none, some .InvalidGroupHandle⟩
    | some o =>
        ⟨{ self with chains :=
            { self.chains with
                success_groups := self.chains.success_groups ++ [hid] } },
          some { o with chains :=
            { o.chains with
                precede_groups := o.chains.precede_groups ++ [self.gid] } },
          none⟩

/-! ## Task raw constructors (`src/src/task/task.rs`) -/

/-- The observable fields of `TaskRaw`. -/
structure TaskRaw where
  name : String
  has_func : Bool
deriving DecidableEq, Repr

/-- `TaskRaw::from_closure`: asserts that the name is non-empty
(`none` models the assertion failure). -/
def from_closure (name : String) : Option TaskRaw :=
  if name.isEmpty then none else some ⟨name, true⟩

/-- `TaskRaw::from_method`: asserts that the name is non-empty. -/
def from_method (name : String) : Option TaskRaw :=
  if name.isEmpty then none else some ⟨name, true⟩

/-- `TaskRaw::from_method_mut`: the source contains no assertion, so the
constructor succeeds for every name. -/
def from_method_mut (name : String) : Option TaskRaw :=
  some ⟨name, true⟩

/-! ## SequentialWorker (`src/src/worker.rs`) -/

/-- The task-node list stored in the group node at index `i`. -/
def tasksOf (nodes : List GroupNode) (i : Nat) : List TaskNode :=
  (nodes.getD i default).task_nodes

/-- The successor index list stored in the group node at index `i`. -/
def succsOf (nodes : List GroupNode) (i : Nat) : List Nat :=
  (nodes.getD i default).successor_idxs

/-- Total number of task nodes over all group nodes. -/
def taskTotal (nodes : List GroupNode) : Nat :=
  ((List.range nodes.length).map (fun i => (tasksOf nodes i).length)).sum

/-- A ghost record of one `fetch_sub(1)` on a `GroupNode` counter: which
counter (`isPred` selects `remained_predecessor_cnt` over
`remained_task_cnt`), the node index, and the previous value the
`fetch_sub` observed. -/
structure DecEvent where
  isPred : Bool
  idx : Nat
  prev : Nat
deriving DecidableEq, Repr

/-- The `SequentialWorker` state: the mpsc FIFO contents, the worker's
`task_count`, the two per-node counters (indexed like `group_nodes`), and
the two ghost logs (`trace` = popped task nodes in order, `events` =
counter decrements). -/
structure WState where
  queue : List TaskNode
  tcnt : Nat
  rem : List Nat
  pred : List Nat
  trace : List TaskNode
  events : List DecEvent
deriving DecidableEq, Repr

/-- One iteration of the successor loop of the completion protocol:
`decrease_predecessor_count` on successor `j` (observing `pp`), and when
`pp == 1` the whole task-node list of `j` is sent into the FIFO. -/
def bump1 (nodes : List GroupNode) (st : WState) (j : Nat) : WState :=
  let pp := st.pred.getD j 0
  { st with
      pred := st.pred.set j (pp - 1)
      queue := if pp = 1 then st.queue ++ tasksOf nodes j else st.queue
      events := st.events ++ [⟨true, j, pp⟩] }

/-- The successor loop of the completion protocol, run over a successor
index list. -/
def propagate (nodes : List GroupNode) (l : List Nat) (st : WState) : WState :=
  l.foldl (bump1 nodes) st

/-- The state right after a popped task has run: the task is appended to the
pop log, the worker's `task_count` is decremented, and `decrease_task_count`
has run on the owning group (observing `s.rem.getD t.gidx 0`). -/
def popState (s : WState) (t : TaskNode) (rest : List TaskNode) : WState :=
  { queue := rest
    tcnt := s.tcnt - 1
    rem := s.rem.set t.gidx (s.rem.getD t.gidx 0 - 1)
    pred := s.pred
    trace := s.trace ++ [t]
    events := s.events ++ [⟨false, t.gidx, s.rem.getD t.gidx 0⟩] }

/-- One iteration of `SequentialWorker::execute`'s loop when the FIFO is
non-empty (`none` models the loop exit when `try_recv` fails): pop a task,
call it when its handle is live (no scheduler-visible effect), decrement the
worker's `task_count`, `decrease_task_count` on the owning group (observing
`prev`), and when `prev == 1` run the successor loop. -/
def step (nodes : List GroupNode) (s : WState) : Option WState :=
  match s.queue with
  | [] => none
  | t :: rest =>
      some (if s.rem.getD t.gidx 0 = 1 then
              propagate nodes (succsOf nodes t.gidx) (popState s t rest)
            else popState s t rest)

/-- `SequentialWorker::execute`'s loop, driven by fuel; once `step` returns
`none` (empty FIFO) the state is final. -/
def run (nodes : List GroupNode) : Nat → WState → WState
  | 0, s => s
  | Nat.succ f, s =>
      match step nodes s with
      | none => s
      | some s2 => run nodes f s2

/-- `SequentialWorker::ready`: push the task nodes of every root group into
the FIFO (in root order) and store the topology's task count. -/
def ready (topo : Topology) : WState :=
  { queue := (topo.root_idxs.map (fun i => tasksOf topo.group_nodes i)).flatten
    tcnt := topo.task_count
    rem := topo.group_nodes.map (fun nd => nd.remained_task_cnt)
    pred := topo.group_nodes.map (fun nd => nd.remained_predecessor_cnt)
    trace := []
    events := [] }

/-- A full `ready` + `execute` cycle of the `SequentialWorker` over a frozen
topology.  The fuel `taskTotal + 1` is enough for the loop to reach the
empty-FIFO exit on every well-formed acyclic topology (proved below). -/
def seqExecute (topo : Topology) : WState :=
  run topo.group_nodes (taskTotal topo.group_nodes + 1) (ready topo)

/-! ## Executor state machine (`src/src/task/executor.rs`) -/

/-- The executor's own state: the optional topology, whether a worker is
attached (the worker trait object's contents play no role in the executor's
control flow), and the `is_executed` flag. -/
structure ExecutorSt where
  topology : Option Topology
  has_worker : Bool
  is_executed : Bool
deriving DecidableEq, Repr

/-- `Executor::execute`: reject when already executed, when no topology is
attached, or when no worker is attached; otherwise set `is_executed`. -/
def Executor.execute (e : ExecutorSt) : ExecutorSt × Option TaskError :=
  if e.is_executed then (e, some .AlreadyExecuted)
  else if e.topology.isNone then (e, some .InvalidGroupHandle)
  else if !e.has_worker then (e, some .EmptyWorker)
  else ({ e with is_executed := true }, none)

/-- `Executor::wait_finish`: reject when idle or when no worker is attached;
otherwise clear `is_executed`. -/
def Executor.wait_finish (e : ExecutorSt) : ExecutorSt × Option TaskError :=
  if !e.is_executed then (e, some .AlreadyIdle)
  else if !e.has_worker then (e, some .EmptyWorker)
  else ({ e with is_executed := false }, none)

/-! ## List toolkit -/

theorem getD_set_self {l : List Nat} {i v : Nat} (h : i < l.length) :
    (l.set i v).getD i 0 = v := by
  simp [List.getD_eq_getElem?_getD, List.getElem?_set, h]

theorem getD_set_ne {l : List Nat} {i j v : Nat} (h : i ≠ j) :
    (l.set i v).getD j 0 = l.getD j 0 := by
  simp [List.getD_eq_getElem?_getD, List.getElem?_set, h]

theorem getD_map_range {α : Type} (f : Nat → α) (d : α) {n i : Nat}
    (h : i < n) : ((List.range n).map f).getD i d = f i := by
  simp [List.getD_eq_getElem?_getD, List.getElem?_map, List.getElem?_range h]

theorem getD_map_of_lt {α β : Type} [Inhabited α] (f : α → β) (l : List α)
    (d : β) (i : Nat) (h : i < l.length) :
    (l.map f).getD i d = f (l.getD i default) := by
  simp [List.getD_eq_getElem?_getD, List.getElem?_map,
    List.getElem?_eq_getElem h]

theorem getD_replicate_zero {n k : Nat} :
    (List.replicate n 0).getD k 0 = 0 := by
  rcases Nat.lt_or_ge k n with h | h
  · simp [List.getD_eq_getElem?_getD, List.getElem?_replicate, h]
  · simp [List.getD_eq_getElem?_getD, List.getElem?_replicate,
      Nat.not_lt.mpr h]

theorem sum_map_add {α : Type} (l : List α) (f g : α → Nat) :
    (l.map (fun a => f a + g a)).sum = (l.map f).sum + (l.map g).sum := by
  induction l with
  | nil => simp
  | cons a l ih => simp [ih]; omega

theorem sum_map_ite_eq_countP {α : Type} (l : List α) (p : α → Bool) :
    (l.map (fun a => if p a then 1 else 0)).sum = l.countP p := by
  induction l with
  | nil => simp
  | cons a l ih =>
      by_cases h : p a = true <;> simp [List.countP_cons, h, ih] <;> omega

/-- If `p` implies `q` on `l` and their counts agree, then `q` implies `p`
on `l`. -/
theorem countP_eq_imp {α : Type} {p q : α → Bool} :
    ∀ {l : List α}, (∀ a ∈ l, p a = true → q a = true) →
      l.countP p = l.countP q → ∀ a ∈ l, q a = true → p a = true := by
  intro l
  induction l with
  | nil => intro _ _ a ha; simp at ha
  | cons b l ih =>
      intro himp hcnt a ha hq
      have hmono : l.countP p ≤ l.countP q :=
        List.countP_mono_left (fun x hx => himp x (List.mem_cons_of_mem _ hx))
      rcases List.mem_cons.mp ha with rfl | ha
      · by_contra hp
        have hp' : p a = false := Bool.eq_false_iff.mpr hp
        rw [List.countP_cons, List.countP_cons, hp', hq] at hcnt
        simp at hcnt
        omega
      · refine ih (fun x hx => himp x (List.mem_cons_of_mem _ hx)) ?_ a ha hq
        by_cases hpb : p b = true
        · have hqb : q b = true := himp b (List.mem_cons_self b l) hpb
          rw [List.countP_cons, List.countP_cons, hpb, hqb] at hcnt
          simpa using hcnt
        · have hpb' : p b = false := Bool.eq_false_iff.mpr hpb
          rw [List.countP_cons, List.countP_cons, hpb'] at hcnt
          by_cases hqb : q b = true
          · rw [hqb] at hcnt
            simp at hcnt
            omega
          · have hqb' : q b = false := Bool.eq_false_iff.mpr hqb
            rw [hqb'] at hcnt
            simpa using hcnt

/-- Counting with a strictly weaker predicate that fails at a member gives a
strictly smaller count. -/
theorem countP_lt_of_witness {α : Type} {p q : α → Bool} {l : List α}
    {a : α} (ha : a ∈ l) (hq : q a = true) (hp : p a = false)
    (himp : ∀ x ∈ l, p x = true → q x = true) :
    l.countP p < l.countP q := by
  by_contra hle
  have hmono : l.countP p ≤ l.countP q := List.countP_mono_left himp
  have heq : l.countP p = l.countP q := Nat.le_antisymm hmono (Nat.ge_of_not_lt hle)
  have := countP_eq_imp himp heq a ha hq
  rw [hp] at this
  exact Bool.false_ne_true this

/-- Changing a predicate from `false` to `true` at exactly one member of a
duplicate-free list raises the count by one. -/
theorem countP_update_point {α : Type} {p q : α → Bool} {l : List α}
    {a : α} (hnd : l.Nodup) (ha : a ∈ l)
    (hoff : ∀ x ∈ l, x ≠ a → p x = q x)
    (hpa : p a = false) (hqa : q a = true) :
    l.countP q = l.countP p + 1 := by
  induction l with
  | nil => simp at ha
  | cons b l ih =>
      rcases List.mem_cons.mp ha with rfl | ha
      · have hnotin : a ∉ l := (List.nodup_cons.mp hnd).1
        have heq : l.countP p = l.countP q := by
          apply List.countP_congr
          intro x hx
          have hxa : x ≠ a := fun h => hnotin (h ▸ hx)
          rw [hoff x (List.mem_cons_of_mem _ hx) hxa]
        rw [List.countP_cons, List.countP_cons, hpa, hqa, heq]
        simp
      · have hba : b ≠ a := by
          intro h
          exact (List.nodup_cons.mp hnd).1 (h ▸ ha)
        have hb : p b = q b := hoff b (List.mem_cons_self b l) hba
        rw [List.countP_cons, List.countP_cons, ← hb]
        have := ih (List.nodup_cons.mp hnd).2 ha
          (fun x hx hxa => hoff x (List.mem_cons_of_mem _ hx) hxa)
        omega

/-! ## Derived observation functions for the execute cycle -/

/-- The task nodes of group node `i` inside a pop log or FIFO content. -/
def nodeFilter (i : Nat) (l : List TaskNode) : List TaskNode :=
  l.filter (fun t => t.gidx == i)

/-- How many node-`i` tasks a list holds. -/
def nodeCnt (i : Nat) (l : List TaskNode) : Nat :=
  (nodeFilter i l).length

/-- Number of occurrences of a particular task node in a list. -/
def occ (t : TaskNode) (l : List TaskNode) : Nat :=
  (l.filter (fun x => x == t)).length

/-- The in-degree of node `j` in the frozen successor graph: how many nodes
list `j` as a successor. -/
def indeg (nodes : List GroupNode) (j : Nat) : Nat :=
  (List.range nodes.length).countP (fun i => decide (j ∈ succsOf nodes i))

/-- Group node `i` is complete in pop log `τ`: all of its task nodes have
been popped. -/
def completeB (nodes : List GroupNode) (τ : List TaskNode) (i : Nat) : Bool :=
  nodeCnt i τ == (tasksOf nodes i).length

/-- How many predecessors of `j` are complete in pop log `τ`. -/
def doneIn (nodes : List GroupNode) (τ : List TaskNode) (j : Nat) : Nat :=
  (List.range nodes.length).countP
    (fun i => decide (j ∈ succsOf nodes i) && completeB nodes τ i)

theorem nodeFilter_append (i : Nat) (l l2 : List TaskNode) :
    nodeFilter i (l ++ l2) = nodeFilter i l ++ nodeFilter i l2 :=
  List.filter_append _ _

theorem nodeCnt_append (i : Nat) (l l2 : List TaskNode) :
    nodeCnt i (l ++ l2) = nodeCnt i l + nodeCnt i l2 := by
  simp [nodeCnt, nodeFilter_append]

theorem nodeCnt_singleton (i : Nat) (t : TaskNode) :
    nodeCnt i [t] = if t.gidx = i then 1 else 0 := by
  by_cases h : t.gidx = i <;>
    simp [nodeCnt, nodeFilter, List.filter_cons, h]

theorem doneIn_le_indeg (nodes : List GroupNode) (τ : List TaskNode)
    (j : Nat) : doneIn nodes τ j ≤ indeg nodes j :=
  List.countP_mono_left (fun i _ h => by
    simpa using (Bool.and_eq_true _ _).mp h |>.1)

/-! ## Well-formedness of a frozen topology -/

/-- The structural facts `Topology::new_from` guarantees, used by the
invariant proof of the sequential execute cycle. -/
structure WF (topo : Topology) : Prop where
  w1 : ∀ i < topo.group_nodes.length, tasksOf topo.group_nodes i ≠ []
  w2 : ∀ i < topo.group_nodes.length, ∀ t ∈ tasksOf topo.group_nodes i,
        t.gidx = i
  w3 : ∀ i < topo.group_nodes.length, (tasksOf topo.group_nodes i).Nodup
  w4 : ∀ i < topo.group_nodes.length, (succsOf topo.group_nodes i).Nodup
  w5 : ∀ i < topo.group_nodes.length, ∀ j ∈ succsOf topo.group_nodes i,
        j < topo.group_nodes.length
  w6 : ∀ i < topo.group_nodes.length, i ∉ succsOf topo.group_nodes i
  w7 : ∀ i < topo.group_nodes.length,
        (topo.group_nodes.getD i default).remained_task_cnt =
          (tasksOf topo.group_nodes i).length
  w8 : ∀ j < topo.group_nodes.length,
        (topo.group_nodes.getD j default).remained_predecessor_cnt =
          indeg topo.group_nodes j
  w9 : topo.task_count = taskTotal topo.group_nodes
  w10 : topo.root_idxs = (List.range topo.group_nodes.length).filter
          (fun i => decide (indeg topo.group_nodes i = 0))

/-! ## The freeze step establishes well-formedness -/

theorem sum_map_ite_prop_eq_countP {α : Type} (l : List α) (P : α → Prop)
    [DecidablePred P] :
    (l.map (fun a => if P a then 1 else 0)).sum =
      l.countP (fun a => decide (P a)) := by
  induction l with
  | nil => simp
  | cons a l ih =>
      by_cases h : P a <;> simp [List.countP_cons, h, ih] <;> omega

theorem length_fillNodes (gl : List GroupSnap) :
    (fillNodes gl).length = (liveGroups gl).length := by
  simp [fillNodes]

theorem fillNodes_getD (gl : List GroupSnap) {i : Nat}
    (h : i < (liveGroups gl).length) :
    (fillNodes gl).getD i default =
      { gid := ((liveGroups gl).getD i default).gid
        task_nodes := mkTaskNodes i ((liveGroups gl).getD i default)
        remained_task_cnt :=
          (mkTaskNodes i ((liveGroups gl).getD i default)).length
        successor_idxs := succIdxsOf (liveGroups gl) i
        remained_predecessor_cnt := (predCounts (liveGroups gl)).getD i 0 } := by
  show ((List.range (liveGroups gl).length).map _).getD i default = _
  rw [getD_map_range _ _ h]
  rfl

theorem tasksOf_fillNodes (gl : List GroupSnap) {i : Nat}
    (h : i < (liveGroups gl).length) :
    tasksOf (fillNodes gl) i = mkTaskNodes i ((liveGroups gl).getD i default) := by
  rw [tasksOf, fillNodes_getD gl h]

theorem succsOf_fillNodes (gl : List GroupSnap) {i : Nat}
    (h : i < (liveGroups gl).length) :
    succsOf (fillNodes gl) i = succIdxsOf (liveGroups gl) i := by
  rw [succsOf, fillNodes_getD gl h]

theorem mkTaskNodes_ne_nil (i : Nat) (g : GroupSnap) :
    mkTaskNodes i g ≠ [] := by
  unfold mkTaskNodes
  by_cases h : (g.tasks.filter (fun t => !t.released)).length = 0
  · simp [h]
  · simp only [h, if_false]
    intro hcon
    have := congrArg List.length hcon
    simp only [List.length_map, List.length_range, List.length_nil] at this
    exact h this

theorem mkTaskNodes_gidx (i : Nat) (g : GroupSnap) :
    ∀ t ∈ mkTaskNodes i g, t.gidx = i := by
  unfold mkTaskNodes
  by_cases h : (g.tasks.filter (fun t => !t.released)).length = 0
  · simp [h]
  · simp only [h, if_false]
    intro t ht
    rcases List.mem_map.mp ht with ⟨p, _, hp⟩
    rw [← hp]

theorem mkTaskNodes_nodup (i : Nat) (g : GroupSnap) :
    (mkTaskNodes i g).Nodup := by
  unfold mkTaskNodes
  by_cases h : (g.tasks.filter (fun t => !t.released)).length = 0 <;>
    simp only [h, if_true, if_false, decide_eq_true_eq]
  · simp
  · refine List.Nodup.map ?_ (List.nodup_range _)
    intro a b hab
    simpa using congrArg TaskNode.tpos hab

theorem succIdxsOf_nodup (live : List GroupSnap) (i : Nat) :
    (succIdxsOf live i).Nodup :=
  List.Nodup.filter _ (List.nodup_range _)

theorem succIdxsOf_lt (live : List GroupSnap) (i : Nat) :
    ∀ j ∈ succIdxsOf live i, j < live.length := by
  intro j hj
  exact List.mem_range.mp (List.mem_filter.mp hj).1

theorem succIdxsOf_not_self (live : List GroupSnap) (i : Nat) :
    i ∉ succIdxsOf live i := by
  intro h
  have := (List.mem_filter.mp h).2
  simp at this

theorem length_bumpPreds (c l : List Nat) :
    (bumpPreds c l).length = c.length := by
  induction l generalizing c with
  | nil => rfl
  | cons j l ih =>
      show (bumpPreds (c.set j (c.getD j 0 + 1)) l).length = _
      rw [ih, List.length_set]

theorem bumpPreds_getD (l : List Nat) :
    ∀ (c : List Nat) (k : Nat), (∀ j ∈ l, j < c.length) →
      (bumpPreds c l).getD k 0 = c.getD k 0 + l.count k := by
  induction l with
  | nil => intro c k _; simp [bumpPreds]
  | cons j l ih =>
      intro c k hlt
      have hj : j < c.length := hlt j (List.mem_cons_self j l)
      show (bumpPreds (c.set j (c.getD j 0 + 1)) l).getD k 0 = _
      rw [ih _ k (fun x hx => by
        rw [List.length_set]; exact hlt x (List.mem_cons_of_mem _ hx))]
      by_cases hk : j = k
      · subst hk
        rw [getD_set_self hj, List.count_cons]
        have : (j == j) = true := by simp
        rw [this]
        simp only [if_true]
        omega
      · rw [getD_set_ne hk, List.count_cons]
        have : (j == k) = false := by simpa using hk
        rw [this]
        simp

theorem foldl_bump_getD (live : List GroupSnap) (is : List Nat) :
    ∀ (acc : List Nat) (k : Nat), acc.length = live.length →
      ((is.foldl (fun a i => bumpPreds a (succIdxsOf live i)) acc).getD k 0)
        = acc.getD k 0 +
          (is.map (fun i => (succIdxsOf live i).count k)).sum := by
  induction is with
  | nil => intro acc k _; simp
  | cons i is ih =>
      intro acc k hlen
      rw [List.foldl_cons,
        ih _ k (by rw [length_bumpPreds]; exact hlen),
        bumpPreds_getD _ _ k (fun j hj => by
          rw [hlen]; exact succIdxsOf_lt live i j hj)]
      rw [List.map_cons, List.sum_cons]
      omega

theorem predCounts_getD (live : List GroupSnap) (k : Nat) :
    (predCounts live).getD k 0 =
      ((List.range live.length).map
        (fun i => (succIdxsOf live i).count k)).sum := by
  unfold predCounts
  rw [foldl_bump_getD live _ _ k (List.length_replicate _ _),
    getD_replicate_zero]
  simp

theorem predCounts_eq_indeg (gl : List GroupSnap) {k : Nat}
    (hk : k < (liveGroups gl).length) :
    (predCounts (liveGroups gl)).getD k 0 = indeg (fillNodes gl) k := by
  rw [predCounts_getD, indeg, length_fillNodes]
  have h1 : ((List.range (liveGroups gl).length).map
      (fun i => (succIdxsOf (liveGroups gl) i).count k)).sum =
      ((List.range (liveGroups gl).length).map
        (fun i => if k ∈ succIdxsOf (liveGroups gl) i then 1 else 0)).sum := by
    congr 1
    apply List.map_congr_left
    intro i _
    by_cases hmem : k ∈ succIdxsOf (liveGroups gl) i
    · rw [if_pos hmem]
      exact List.count_eq_one_of_mem (succIdxsOf_nodup _ _) hmem
    · rw [if_neg hmem]
      exact List.count_eq_zero.mpr hmem
  rw [h1, sum_map_ite_prop_eq_countP]
  apply List.countP_congr
  intro i hi
  rw [succsOf_fillNodes gl (List.mem_range.mp hi)]

theorem new_from_ok {gl : List GroupSnap} {topo : Topology}
    (h : new_from gl = .ok topo) :
    topo = ⟨fillNodes gl, taskCountOf gl,
      (List.range (fillNodes gl).length).filter
        (fun i =>
          ((fillNodes gl).getD i default).remained_predecessor_cnt == 0)⟩ := by
  unfold new_from at h
  by_cases hc : gl.isEmpty || gl.all (fun g => g.released)
  · simp [hc] at h
  · simp only [hc, if_false] at h
    exact (Except.ok.inj h).symm

theorem freeze_wf {gl : List GroupSnap} {topo : Topology}
    (h : new_from gl = .ok topo) : WF topo := by
  have htopo := new_from_ok h
  subst htopo
  have hlen : (fillNodes gl).length = (liveGroups gl).length :=
    length_fillNodes gl
  refine ⟨?_, ?_, ?_, ?_, ?_, ?_, ?_, ?_, ?_, ?_⟩
  · intro i hi
    rw [tasksOf_fillNodes gl (hlen ▸ hi)]
    exact mkTaskNodes_ne_nil _ _
  · intro i hi
    rw [tasksOf_fillNodes gl (hlen ▸ hi)]
    exact mkTaskNodes_gidx _ _
  · intro i hi
    rw [tasksOf_fillNodes gl (hlen ▸ hi)]
    exact mkTaskNodes_nodup _ _
  · intro i hi
    rw [succsOf_fillNodes gl (hlen ▸ hi)]
    exact succIdxsOf_nodup _ _
  · intro i hi j hj
    rw [succsOf_fillNodes gl (hlen ▸ hi)] at hj
    rw [hlen]
    exact succIdxsOf_lt _ _ _ hj
  · intro i hi
    rw [succsOf_fillNodes gl (hlen ▸ hi)]
    exact succIdxsOf_not_self _ _
  · intro i hi
    rw [fillNodes_getD gl (hlen ▸ hi), tasksOf_fillNodes gl (hlen ▸ hi)]
  · intro j hj
    rw [fillNodes_getD gl (hlen ▸ hj)]
    exact predCounts_eq_indeg gl (hlen ▸ hj)
  · show taskCountOf gl = taskTotal (fillNodes gl)
    unfold taskCountOf taskTotal create_group_nodes
    rw [List.map_map, hlen]
    congr 1
    apply List.map_congr_left
    intro i hi
    have hi' := List.mem_range.mp hi
    show ((mkGroupNode0 i ((liveGroups gl).getD i default)).task_nodes).length
      = (tasksOf (fillNodes gl) i).length
    rw [tasksOf_fillNodes gl hi']
    rfl
  · show (List.range (fillNodes gl).length).filter
        (fun i =>
          ((fillNodes gl).getD i default).remained_predecessor_cnt == 0) = _
    apply List.filter_congr
    intro i hi
    have hi' := List.mem_range.mp hi
    rw [fillNodes_getD gl (hlen ▸ hi')]
    show ((predCounts (liveGroups gl)).getD i 0 == 0) = _
    rw [predCounts_eq_indeg gl (hlen ▸ hi')]
    have hbeq : ∀ m : Nat, (m == 0) = decide (m = 0) := by
      intro m; cases m <;> rfl
    rw [hbeq]

/-! ## Characterization of the completion protocol -/

theorem bump1_pred (nodes : List GroupNode) (st : WState) (j : Nat) :
    (bump1 nodes st j).pred = st.pred.set j (st.pred.getD j 0 - 1) := rfl

theorem bump1_rem (nodes : List GroupNode) (st : WState) (j : Nat) :
    (bump1 nodes st j).rem = st.rem := rfl

theorem bump1_tcnt (nodes : List GroupNode) (st : WState) (j : Nat) :
    (bump1 nodes st j).tcnt = st.tcnt := rfl

theorem bump1_trace (nodes : List GroupNode) (st : WState) (j : Nat) :
    (bump1 nodes st j).trace = st.trace := rfl

theorem bump1_queue (nodes : List GroupNode) (st : WState) (j : Nat) :
    (bump1 nodes st j).queue =
      if st.pred.getD j 0 = 1 then st.queue ++ tasksOf nodes j
      else st.queue := rfl

theorem bump1_events (nodes : List GroupNode) (st : WState) (j : Nat) :
    (bump1 nodes st j).events = st.events ++ [⟨true, j, st.pred.getD j 0⟩] :=
  rfl

theorem propagate_cons (nodes : List GroupNode) (j : Nat) (l : List Nat)
    (st : WState) :
    propagate nodes (j :: l) st = propagate nodes l (bump1 nodes st j) := rfl

theorem propagate_rem (nodes : List GroupNode) :
    ∀ (l : List Nat) (st : WState), (propagate nodes l st).rem = st.rem := by
  intro l
  induction l with
  | nil => intro st; rfl
  | cons j l ih => intro st; rw [propagate_cons, ih, bump1_rem]

theorem propagate_tcnt (nodes : List GroupNode) :
    ∀ (l : List Nat) (st : WState), (propagate nodes l st).tcnt = st.tcnt := by
  intro l
  induction l with
  | nil => intro st; rfl
  | cons j l ih => intro st; rw [propagate_cons, ih, bump1_tcnt]

theorem propagate_trace (nodes : List GroupNode) :
    ∀ (l : List Nat) (st : WState),
      (propagate nodes l st).trace = st.trace := by
  intro l
  induction l with
  | nil => intro st; rfl
  | cons j l ih => intro st; rw [propagate_cons, ih, bump1_trace]

theorem propagate_pred_length (nodes : List GroupNode) :
    ∀ (l : List Nat) (st : WState),
      (propagate nodes l st).pred.length = st.pred.length := by
  intro l
  induction l with
  | nil => intro st; rfl
  | cons j l ih =>
      intro st
      rw [propagate_cons, ih, bump1_pred, List.length_set]

theorem propagate_pred_getD (nodes : List GroupNode) :
    ∀ (l : List Nat) (st : WState), l.Nodup →
      (∀ j ∈ l, j < st.pred.length) → ∀ k,
      (propagate nodes l st).pred.getD k 0 =
        st.pred.getD k 0 - (if k ∈ l then 1 else 0) := by
  intro l
  induction l with
  | nil => intro st _ _ k; simp [propagate]
  | cons j l ih =>
      intro st hnd hb k
      have hjlen : j < st.pred.length := hb j (List.mem_cons_self j l)
      rw [propagate_cons,
        ih _ (List.nodup_cons.mp hnd).2 (fun x hx => by
          rw [bump1_pred, List.length_set]
          exact hb x (List.mem_cons_of_mem _ hx)) k,
        bump1_pred]
      by_cases hkj : k = j
      · subst hkj
        have hkl : k ∉ l := (List.nodup_cons.mp hnd).1
        rw [getD_set_self hjlen]
        simp [hkl]
      · rw [getD_set_ne (fun h => hkj h.symm)]
        by_cases hkl : k ∈ l


        · simp [hkl, List.mem_cons, hkj]
        · simp [hkl, List.mem_cons, hkj]

theorem propagate_queue (nodes : List GroupNode) :
    ∀ (l : List Nat) (st : WState), l.Nodup →
      (propagate nodes l st).queue =
        st.queue ++
          ((l.filter (fun j => st.pred.getD j 0 == 1)).map
            (tasksOf nodes)).flatten := by
  intro l
  induction l with
  | nil => intro st _; simp [propagate]
  | cons j l ih =>
      intro st hnd
      rw [propagate_cons, ih _ (List.nodup_cons.mp hnd).2]
      have hfil : l.filter
          (fun j2 => (bump1 nodes st j).pred.getD j2 0 == 1) =
          l.filter (fun j2 => st.pred.getD j2 0 == 1) := by
        apply List.filter_congr
        intro x hx
        have hxj : j ≠ x := fun h => (List.nodup_cons.mp hnd).1 (h ▸ hx)
        rw [bump1_pred, getD_set_ne hxj]
      rw [hfil, bump1_queue, List.filter_cons]
      by_cases hpp : st.pred.getD j 0 = 1
      · have : (st.pred.getD j 0 == 1) = true := by simpa using hpp
        rw [if_pos hpp, this]
        simp [List.append_assoc]
      · have : (st.pred.getD j 0 == 1) = false := by simpa using hpp
        rw [if_neg hpp, this]
        simp

theorem propagate_events (nodes : List GroupNode) :
    ∀ (l : List Nat) (st : WState), l.Nodup →
      (propagate nodes l st).events =
        st.events ++ l.map (fun j => ⟨true, j, st.pred.getD j 0⟩) := by
  intro l
  induction l with
  | nil => intro st _; simp [propagate]
  | cons j l ih =>
      intro st hnd
      rw [propagate_cons, ih _ (List.nodup_cons.mp hnd).2]
      have hmap : l.map
          (fun j2 => (⟨true, j2, (bump1 nodes st j).pred.getD j2 0⟩ : DecEvent)) =
          l.map (fun j2 => ⟨true, j2, st.pred.getD j2 0⟩) := by
        apply List.map_congr_left
        intro x hx
        have hxj : j ≠ x := fun h => (List.nodup_cons.mp hnd).1 (h ▸ hx)
        rw [bump1_pred, getD_set_ne hxj]
      rw [hmap, bump1_events]
      simp

/-! ## The execute-cycle invariant -/

theorem nodeCnt_cons (i : Nat) (t : TaskNode) (l : List TaskNode) :
    nodeCnt i (t :: l) = (if t.gidx = i then 1 else 0) + nodeCnt i l := by
  by_cases h : t.gidx = i <;>
    simp [nodeCnt, nodeFilter, List.filter_cons, h] <;> omega

theorem countP_eq_one_of_unique {α : Type} {p : α → Bool} :
    ∀ {l : List α}, l.Nodup → ∀ {a : α}, a ∈ l → p a = true →
      (∀ x ∈ l, p x = true → x = a) → l.countP p = 1 := by
  intro l
  induction l with
  | nil => intro _ a ha; simp at ha
  | cons b l ih =>
      intro hnd a ha hpa huniq
      rcases List.mem_cons.mp ha with rfl | ha
      · have hzero : l.countP p = 0 := by
          rw [List.countP_eq_zero]
          intro x hx hpx
          exact (List.nodup_cons.mp hnd).1
            ((huniq x (List.mem_cons_of_mem _ hx) hpx) ▸ hx)
        rw [List.countP_cons, hzero, hpa]
        simp
      · have hpb : p b = false := by
          by_contra hpb
          have : b = a := huniq b (List.mem_cons_self b l)
            (Bool.of_not_eq_false hpb)
          exact (List.nodup_cons.mp hnd).1 (this ▸ ha)
        rw [List.countP_cons, hpb,
          ih (List.nodup_cons.mp hnd).2 ha hpa
            (fun x hx hpx => huniq x (List.mem_cons_of_mem _ hx) hpx)]
        simp

theorem sum_map_le {α : Type} (l : List α) (f g : α → Nat)
    (h : ∀ a ∈ l, f a ≤ g a) : (l.map f).sum ≤ (l.map g).sum := by
  induction l with
  | nil => simp
  | cons a l ih =>
      simp only [List.map_cons, List.sum_cons]
      have h1 := h a (List.mem_cons_self a l)
      have h2 := ih (fun x hx => h x (List.mem_cons_of_mem _ hx))
      omega

theorem sum_map_lt {α : Type} (l : List α) (f g : α → Nat)
    (h : ∀ a ∈ l, f a ≤ g a) {a : α} (ha : a ∈ l) (hlt : f a < g a) :
    (l.map f).sum < (l.map g).sum := by
  induction l with
  | nil => simp at ha
  | cons b l ih =>
      simp only [List.map_cons, List.sum_cons]
      rcases List.mem_cons.mp ha with rfl | ha
      · have h2 := sum_map_le l f g (fun x hx => h x (List.mem_cons_of_mem _ hx))
        omega
      · have h1 := h b (List.mem_cons_self b l)
        have h2 := ih (fun x hx => h x (List.mem_cons_of_mem _ hx)) ha
        omega

/-- A pop log whose entries all carry node indices below `n` has as many
entries as the per-node counts add up to. -/
theorem length_eq_sum_nodeCnt (n : Nat) :
    ∀ (l : List TaskNode), (∀ t ∈ l, t.gidx < n) →
      l.length = ((List.range n).map (fun i => nodeCnt i l)).sum := by
  intro l
  induction l with
  | nil =>
      intro _
      simp [nodeCnt, nodeFilter]
  | cons t l ih =>
      intro h
      have hrec := ih (fun x hx => h x (List.mem_cons_of_mem _ hx))
      have hmap : (List.range n).map (fun i => nodeCnt i (t :: l)) =
          (List.range n).map
            (fun i => (if t.gidx = i then 1 else 0) + nodeCnt i l) := by
        apply List.map_congr_left
        intro i _
        exact nodeCnt_cons i t l
      rw [hmap, sum_map_add, sum_map_ite_prop_eq_countP]
      have hcnt : (List.range n).countP (fun i => decide (t.gidx = i)) = 1 := by
        have hmem : t.gidx ∈ List.range n :=
          List.mem_range.mpr (h t (List.mem_cons_self t l))
        exact countP_eq_one_of_unique (List.nodup_range n) hmem
          (by simp) (fun x _ hx => by simpa [eq_comm] using hx)
      rw [hcnt]
      simp only [List.length_cons, hrec]
      omega

/-- Flattening blocks that are empty except at one duplicate-free index. -/
theorem flatten_map_ite {i : Nat} (x : List TaskNode) :
    ∀ (L : List Nat), L.Nodup →
      ((L.map (fun j => if j = i then x else [])).flatten =
        if i ∈ L then x else []) := by
  intro L
  induction L with
  | nil => intro _; simp
  | cons j L ih =>
      intro hnd
      rw [List.map_cons, List.flatten_cons, ih (List.nodup_cons.mp hnd).2]
      by_cases hji : j = i
      · subst hji
        have hni : j ∉ L := (List.nodup_cons.mp hnd).1
        simp [hni]
      · rw [if_neg hji, List.nil_append]
        by_cases hiL : i ∈ L
        · rw [if_pos hiL, if_pos (List.mem_cons_of_mem _ hiL)]
        · rw [if_neg hiL, if_neg (fun h =>
            (List.mem_cons.mp h).elim (fun h2 => hji h2.symm) hiL)]

theorem completeB_true_iff (nodes : List GroupNode) (τ : List TaskNode)
    (i : Nat) :
    completeB nodes τ i = true ↔ nodeCnt i τ = (tasksOf nodes i).length := by
  simp [completeB]

/-- When node `B` has been released (all incoming edges accounted for),
every predecessor `A` of `B` is complete. -/
theorem preds_complete_of_released {nodes : List GroupNode}
    {τ : List TaskNode} {B : Nat}
    (hrel : doneIn nodes τ B = indeg nodes B) :
    ∀ A, A < nodes.length → B ∈ succsOf nodes A →
      nodeCnt A τ = (tasksOf nodes A).length := by
  intro A hA hmem
  have himp : ∀ i ∈ List.range nodes.length,
      (fun i => decide (B ∈ succsOf nodes i) && completeB nodes τ i) i = true →
      (fun i => decide (B ∈ succsOf nodes i)) i = true := by
    intro i _ h
    exact ((Bool.and_eq_true _ _).mp h).1
  have := countP_eq_imp himp hrel A (List.mem_range.mpr hA)
    (by simpa using hmem)
  exact (completeB_true_iff nodes τ A).mp ((Bool.and_eq_true _ _).mp this).2

/-- A predecessor of `j` that is not complete keeps `doneIn` strictly below
the in-degree. -/
theorem doneIn_lt_of_incomplete {nodes : List GroupNode}
    {τ : List TaskNode} {j g : Nat} (hg : g < nodes.length)
    (hmem : j ∈ succsOf nodes g)
    (hinc : completeB nodes τ g = false) :
    doneIn nodes τ j < indeg nodes j := by
  apply countP_lt_of_witness (a := g) (List.mem_range.mpr hg)
    (by simpa using hmem)
  · rw [Bool.and_eq_false_iff]
    right
    exact hinc
  · intro x _ h
    exact ((Bool.and_eq_true _ _).mp h).1

/-- The invariant maintained by every iteration of
`SequentialWorker::execute` over a well-formed topology.  `trace` is the pop
log; `doneIn τ i = indeg i` says node `i` has been released into the FIFO. -/
structure WInv (nodes : List GroupNode) (s : WState) : Prop where
  remLen : s.rem.length = nodes.length
  predLen : s.pred.length = nodes.length
  remEq : ∀ i, i < nodes.length →
    s.rem.getD i 0 = (tasksOf nodes i).length - nodeCnt i s.trace
  predEq : ∀ j, j < nodes.length →
    s.pred.getD j 0 = indeg nodes j - doneIn nodes s.trace j
  nodeTasks : ∀ i, i < nodes.length →
    nodeFilter i (s.trace ++ s.queue) =
      if doneIn nodes s.trace i = indeg nodes i then tasksOf nodes i else []
  gidxLt : ∀ t ∈ s.trace ++ s.queue, t.gidx < nodes.length
  tcntEq : s.tcnt = taskTotal nodes - s.trace.length
  traceLe : s.trace.length ≤ taskTotal nodes
  orderOk : ∀ a, a < nodes.length → ∀ b ∈ succsOf nodes a,
    ∀ p, p < s.trace.length → (s.trace.getD p default).gidx = b →
      nodeCnt a (s.trace.take p) = (tasksOf nodes a).length
  eventsOk : ∀ e ∈ s.events, 1 ≤ e.prev

theorem step_nil (nodes : List GroupNode) {s : WState} (hq : s.queue = []) :
    step nodes s = none := by
  unfold step
  rw [hq]

theorem step_cons (nodes : List GroupNode) {s : WState} {t : TaskNode}
    {rest : List TaskNode} (hq : s.queue = t :: rest) :
    step nodes s = some (
      if s.rem.getD t.gidx 0 = 1 then
        propagate nodes (succsOf nodes t.gidx) (popState s t rest)
      else popState s t rest) := by
  unfold step
  rw [hq]

theorem doneIn_congr {nodes : List GroupNode} {τ1 τ2 : List TaskNode}
    (h : ∀ i, i < nodes.length →
      completeB nodes τ1 i = completeB nodes τ2 i) (j : Nat) :
    doneIn nodes τ1 j = doneIn nodes τ2 j := by
  unfold doneIn
  apply List.countP_congr
  intro x hx
  have hbe : completeB nodes τ1 x = completeB nodes τ2 x :=
    h x (List.mem_range.mp hx)
  rw [hbe]

theorem doneIn_update {nodes : List GroupNode} {τ τ2 : List TaskNode}
    {g : Nat} (hg : g < nodes.length)
    (hold : completeB nodes τ g = false)
    (hnew : completeB nodes τ2 g = true)
    (hother : ∀ i, i ≠ g → completeB nodes τ2 i = completeB nodes τ i)
    (j : Nat) :
    doneIn nodes τ2 j =
      doneIn nodes τ j + (if j ∈ succsOf nodes g then 1 else 0) := by
  by_cases hjs : j ∈ succsOf nodes g
  · rw [if_pos hjs]
    unfold doneIn
    refine countP_update_point (List.nodup_range _) (List.mem_range.mpr hg)
      ?_ ?_ ?_
    · intro x _ hx
      show (decide (j ∈ succsOf nodes x) && completeB nodes τ x)
        = (decide (j ∈ succsOf nodes x) && completeB nodes τ2 x)
      rw [hother x hx]
    · show (decide (j ∈ succsOf nodes g) && completeB nodes τ g) = false
      rw [hold, Bool.and_false]
    · show (decide (j ∈ succsOf nodes g) && completeB nodes τ2 g) = true
      rw [hnew, Bool.and_true]
      simpa using hjs
  · rw [if_neg hjs, Nat.add_zero]
    unfold doneIn
    apply List.countP_congr
    intro x _
    by_cases hxg : x = g
    · subst hxg
      have hdec : decide (j ∈ succsOf nodes x) = false := by simpa using hjs
      show (decide (j ∈ succsOf nodes x) && completeB nodes τ2 x) = true
        ↔ (decide (j ∈ succsOf nodes x) && completeB nodes τ x) = true
      rw [hdec, Bool.false_and, Bool.false_and]
    · show (decide (j ∈ succsOf nodes x) && completeB nodes τ2 x) = true
        ↔ (decide (j ∈ succsOf nodes x) && completeB nodes τ x) = true
      rw [hother x hxg]

theorem doneIn_nil {topo : Topology} (hWF : WF topo) (j : Nat) :
    doneIn topo.group_nodes [] j = 0 := by
  rw [doneIn, List.countP_eq_zero]
  intro i hi hcon
  have h2 := ((Bool.and_eq_true _ _).mp hcon).2
  have h3 := (completeB_true_iff _ _ _).mp h2
  have hlen : nodeCnt i ([] : List TaskNode) = 0 := by
    simp [nodeCnt, nodeFilter]
  rw [hlen] at h3
  exact hWF.w1 i (List.mem_range.mp hi) (List.length_eq_zero.mp h3.symm)

/-- `nodeFilter` of a flattening of whole-group blocks picks out the block
of the filtered node, when the block list is duplicate-free. -/
theorem nodeFilter_flatten_blocks {topo : Topology} (hWF : WF topo)
    {L : List Nat} (hnd : L.Nodup)
    (hmem : ∀ j ∈ L, j < topo.group_nodes.length) (i : Nat) :
    nodeFilter i ((L.map (tasksOf topo.group_nodes)).flatten) =
      if i ∈ L then tasksOf topo.group_nodes i else [] := by
  rw [nodeFilter, List.filter_flatten, List.map_map]
  have hpt : L.map (List.filter (fun t => t.gidx == i) ∘ tasksOf topo.group_nodes)
      = L.map (fun j => if j = i then tasksOf topo.group_nodes i else []) := by
    apply List.map_congr_left
    intro j hj
    show (tasksOf topo.group_nodes j).filter (fun t => t.gidx == i) = _
    by_cases hji : j = i
    · subst hji
      rw [if_pos rfl, List.filter_eq_self]
      intro t ht
      simp [hWF.w2 j (hmem j hj) t ht]
    · rw [if_neg hji, List.filter_eq_nil_iff]
      intro t ht
      simp [hWF.w2 j (hmem j hj) t ht, hji]
  rw [hpt, flatten_map_ite _ _ hnd]

theorem ready_inv {topo : Topology} (hWF : WF topo) :
    WInv topo.group_nodes (ready topo) := by
  have hroots_nodup : topo.root_idxs.Nodup := by
    rw [hWF.w10]; exact List.Nodup.filter _ (List.nodup_range _)
  have hroots_mem : ∀ j ∈ topo.root_idxs,
      j < topo.group_nodes.length ∧ indeg topo.group_nodes j = 0 := by
    intro j hj
    rw [hWF.w10] at hj
    have h := List.mem_filter.mp hj
    exact ⟨List.mem_range.mp h.1, by simpa using h.2⟩
  have hmem_roots : ∀ j, j < topo.group_nodes.length →
      indeg topo.group_nodes j = 0 → j ∈ topo.root_idxs := by
    intro j hj hz
    rw [hWF.w10]
    exact List.mem_filter.mpr ⟨List.mem_range.mpr hj, by simpa using hz⟩
  have hq : (ready topo).queue =
      (topo.root_idxs.map (tasksOf topo.group_nodes)).flatten := rfl
  have htr : (ready topo).trace = [] := rfl
  have hev : (ready topo).events = [] := rfl
  refine ⟨?_, ?_, ?_, ?_, ?_, ?_, ?_, ?_, ?_, ?_⟩
  · show (topo.group_nodes.map (fun nd => nd.remained_task_cnt)).length = _
    simp
  · show (topo.group_nodes.map (fun nd => nd.remained_predecessor_cnt)).length = _
    simp
  · intro i hi
    show (topo.group_nodes.map (fun nd => nd.remained_task_cnt)).getD i 0 = _
    rw [getD_map_of_lt _ _ _ _ hi, hWF.w7 i hi, htr]
    simp [nodeCnt, nodeFilter]
  · intro j hj
    show (topo.group_nodes.map
        (fun nd => nd.remained_predecessor_cnt)).getD j 0 = _
    rw [getD_map_of_lt _ _ _ _ hj, hWF.w8 j hj, htr, doneIn_nil hWF]
    omega
  · intro i hi
    rw [htr, List.nil_append, hq,
      nodeFilter_flatten_blocks hWF hroots_nodup
        (fun j hj => (hroots_mem j hj).1) i,
      doneIn_nil hWF]
    by_cases hr : indeg topo.group_nodes i = 0
    · rw [if_pos (hmem_roots i hi hr), if_pos hr.symm]
    · rw [if_neg (fun hmem => hr (hroots_mem i hmem).2),
        if_neg (fun h => hr h.symm)]
  · intro t ht
    rw [htr, List.nil_append, hq] at ht
    rcases List.mem_flatten.mp ht with ⟨bl, hbl, htbl⟩
    rcases List.mem_map.mp hbl with ⟨j, hj, rfl⟩
    rw [hWF.w2 j (hroots_mem j hj).1 t htbl]
    exact (hroots_mem j hj).1
  · show topo.task_count = _
    rw [hWF.w9, htr]
    simp
  · rw [htr]
    simp
  · intro a _ b _ p hp
    rw [htr] at hp
    simp at hp
  · intro e he
    rw [hev] at he
    simp at he

/-- One loop iteration of `SequentialWorker::execute` preserves the
invariant. -/
theorem step_inv {topo : Topology} (hWF : WF topo) {s s2 : WState}
    (hI : WInv topo.group_nodes s)
    (hstep : step topo.group_nodes s = some s2) :
    WInv topo.group_nodes s2 := by
  rcases hq : s.queue with _ | ⟨t, rest⟩
  · rw [step_nil topo.group_nodes hq] at hstep
    exact absurd hstep (by simp)
  rw [step_cons topo.group_nodes hq] at hstep
  have hs2 := (Option.some.inj hstep).symm
  clear hstep
  have ht_mem : t ∈ s.trace ++ s.queue := by
    rw [hq]
    exact List.mem_append_right _ (List.mem_cons_self t rest)
  have hg : t.gidx < topo.group_nodes.length := hI.gidxLt t ht_mem
  have hfil := hI.nodeTasks t.gidx hg
  have htin : t ∈ nodeFilter t.gidx (s.trace ++ s.queue) :=
    List.mem_filter.mpr ⟨ht_mem, by simp⟩
  have hrelg : doneIn topo.group_nodes s.trace t.gidx =
      indeg topo.group_nodes t.gidx := by
    by_contra hcon
    rw [if_neg hcon] at hfil
    rw [hfil] at htin
    simp at htin
  rw [if_pos hrelg] at hfil
  have hfil2 : nodeFilter t.gidx (s.trace ++ (t :: rest)) =
      tasksOf topo.group_nodes t.gidx := by
    rw [← hq]
    exact hfil
  have hsplit : nodeCnt t.gidx s.trace + nodeCnt t.gidx (t :: rest)
      = (tasksOf topo.group_nodes t.gidx).length := by
    unfold nodeCnt
    rw [← List.length_append, ← nodeFilter_append, hfil2]
  have hpos : 1 ≤ nodeCnt t.gidx (t :: rest) := by
    rw [nodeCnt_cons, if_pos rfl]
    omega
  have hlt : nodeCnt t.gidx s.trace <
      (tasksOf topo.group_nodes t.gidx).length := by omega
  have hprev_eq := hI.remEq t.gidx hg
  have hprev1 : 1 ≤ s.rem.getD t.gidx 0 := by omega
  have hcnt' : ∀ i, nodeCnt i (s.trace ++ [t])
      = nodeCnt i s.trace + (if t.gidx = i then 1 else 0) := by
    intro i
    rw [nodeCnt_append, nodeCnt_singleton]
  have hcomp_other : ∀ i, i ≠ t.gidx →
      completeB topo.group_nodes (s.trace ++ [t]) i =
        completeB topo.group_nodes s.trace i := by
    intro i hne
    unfold completeB
    rw [hcnt' i, if_neg (fun h => hne h.symm), Nat.add_zero]
  have hcomp_old : completeB topo.group_nodes s.trace t.gidx = false := by
    unfold completeB
    simp only [beq_eq_false_iff_ne, ne_eq]
    omega
  have hptwise : ∀ i ∈ List.range topo.group_nodes.length,
      nodeCnt i s.trace ≤ (tasksOf topo.group_nodes i).length := by
    intro i hi
    have hnt := hI.nodeTasks i (List.mem_range.mp hi)
    have hle : nodeCnt i s.trace ≤ nodeCnt i (s.trace ++ s.queue) := by
      rw [nodeCnt_append]
      omega
    have hle2 : nodeCnt i (s.trace ++ s.queue) ≤
        (tasksOf topo.group_nodes i).length := by
      unfold nodeCnt
      rw [hnt]
      by_cases hc : doneIn topo.group_nodes s.trace i =
          indeg topo.group_nodes i
      · rw [if_pos hc]
      · rw [if_neg hc]
        simp
    omega
  have htraceLt : s.trace.length < taskTotal topo.group_nodes := by
    have hpart := length_eq_sum_nodeCnt topo.group_nodes.length s.trace
      (fun x hx => hI.gidxLt x (List.mem_append_left _ hx))
    have hstrict := sum_map_lt (List.range topo.group_nodes.length)
      (fun i => nodeCnt i s.trace)
      (fun i => (tasksOf topo.group_nodes i).length)
      hptwise (List.mem_range.mpr hg) hlt
    unfold taskTotal
    omega
  have htrlen : (s.trace ++ [t]).length = s.trace.length + 1 := by simp
  have horder2 : ∀ a, a < topo.group_nodes.length →
      ∀ b ∈ succsOf topo.group_nodes a,
      ∀ p, p < (s.trace ++ [t]).length →
      ((s.trace ++ [t]).getD p default).gidx = b →
      nodeCnt a ((s.trace ++ [t]).take p) =
        (tasksOf topo.group_nodes a).length := by
    intro a ha b hb p hp hgid
    rw [htrlen] at hp
    by_cases hplt : p < s.trace.length
    · rw [List.getD_append _ _ _ _ hplt] at hgid
      rw [List.take_append_of_le_length (Nat.le_of_lt hplt)]
      exact hI.orderOk a ha b hb p hplt hgid
    · have hpe : p = s.trace.length := by omega
      subst hpe
      rw [List.getD_append_right _ _ _ _ (Nat.le_refl _), Nat.sub_self] at hgid
      have hgid' : t.gidx = b := hgid
      rw [List.take_left]
      exact preds_complete_of_released (hgid' ▸ hrelg) a ha hb
  have hremset : ∀ i, i < topo.group_nodes.length →
      (s.rem.set t.gidx (s.rem.getD t.gidx 0 - 1)).getD i 0 =
        (tasksOf topo.group_nodes i).length - nodeCnt i (s.trace ++ [t]) := by
    intro i hi
    by_cases hig : i = t.gidx
    · subst hig
      rw [getD_set_self (by rw [hI.remLen]; exact hi), hcnt' t.gidx,
        if_pos rfl, hprev_eq]
      omega
    · rw [getD_set_ne (fun h => hig h.symm), hcnt' i,
        if_neg (fun h => hig h.symm), Nat.add_zero, hI.remEq i hi]
  have hgidx' : ∀ x ∈ s.trace ++ [t], x.gidx < topo.group_nodes.length := by
    intro x hx
    rcases List.mem_append.mp hx with hx | hx
    · exact hI.gidxLt x (List.mem_append_left _ hx)
    · rw [List.mem_singleton.mp hx]
      exact hg
  have hgidxrest : ∀ x ∈ rest, x.gidx < topo.group_nodes.length := by
    intro x hx
    exact hI.gidxLt x (by
      rw [hq]
      exact List.mem_append_right _ (List.mem_cons_of_mem _ hx))
  have hev_ok1 : ∀ e ∈ s.events ++
      [(⟨false, t.gidx, s.rem.getD t.gidx 0⟩ : DecEvent)], 1 ≤ e.prev := by
    intro e he
    rcases List.mem_append.mp he with he | he
    · exact hI.eventsOk e he
    · rw [List.mem_singleton.mp he]
      exact hprev1
  by_cases hprev : s.rem.getD t.gidx 0 = 1
  · -- the popped task was the last of its group: wavefront release
    rw [if_pos hprev] at hs2
    have hcompg : nodeCnt t.gidx (s.trace ++ [t]) =
        (tasksOf topo.group_nodes t.gidx).length := by
      rw [hcnt' t.gidx, if_pos rfl]
      omega
    have hcomp_new : completeB topo.group_nodes (s.trace ++ [t]) t.gidx
        = true := by
      unfold completeB
      simp [hcompg]
    have hdone' : ∀ j, doneIn topo.group_nodes (s.trace ++ [t]) j
        = doneIn topo.group_nodes s.trace j +
          (if j ∈ succsOf topo.group_nodes t.gidx then 1 else 0) :=
      doneIn_update hg hcomp_old hcomp_new hcomp_other
    have hnd4 := hWF.w4 t.gidx hg
    have hb5 : ∀ j ∈ succsOf topo.group_nodes t.gidx,
        j < (popState s t rest).pred.length := by
      intro j hj
      show j < s.pred.length
      rw [hI.predLen]
      exact hWF.w5 t.gidx hg j hj
    have hpred2 : ∀ k, s2.pred.getD k 0 =
        s.pred.getD k 0 -
          (if k ∈ succsOf topo.group_nodes t.gidx then 1 else 0) := by
      intro k
      rw [hs2]
      exact propagate_pred_getD topo.group_nodes _ _ hnd4 hb5 k
    have hq2 : s2.queue = rest ++
        (((succsOf topo.group_nodes t.gidx).filter
          (fun j => s.pred.getD j 0 == 1)).map
            (tasksOf topo.group_nodes)).flatten := by
      rw [hs2]
      exact propagate_queue topo.group_nodes _ _ hnd4
    have hev2 : s2.events =
        (s.events ++ [(⟨false, t.gidx, s.rem.getD t.gidx 0⟩ : DecEvent)])
          ++ (succsOf topo.group_nodes t.gidx).map
              (fun j => ⟨true, j, s.pred.getD j 0⟩) := by
      rw [hs2]
      exact propagate_events topo.group_nodes _ _ hnd4
    have hrem2 : s2.rem = s.rem.set t.gidx (s.rem.getD t.gidx 0 - 1) := by
      rw [hs2]
      exact propagate_rem topo.group_nodes _ _
    have htr2 : s2.trace = s.trace ++ [t] := by
      rw [hs2]
      exact propagate_trace topo.group_nodes _ _
    have htc2 : s2.tcnt = s.tcnt - 1 := by
      rw [hs2]
      exact propagate_tcnt topo.group_nodes _ _
    have hplen2 : s2.pred.length = s.pred.length := by
      rw [hs2]
      exact propagate_pred_length topo.group_nodes _ _
    have hstricts : ∀ j ∈ succsOf topo.group_nodes t.gidx,
        doneIn topo.group_nodes s.trace j < indeg topo.group_nodes j := by
      intro j hj
      exact doneIn_lt_of_incomplete hg hj hcomp_old
    have hppj : ∀ j ∈ succsOf topo.group_nodes t.gidx, s.pred.getD j 0 =
        indeg topo.group_nodes j - doneIn topo.group_nodes s.trace j := by
      intro j hj
      exact hI.predEq j (hWF.w5 t.gidx hg j hj)
    have hLnodup : ((succsOf topo.group_nodes t.gidx).filter
        (fun j => s.pred.getD j 0 == 1)).Nodup := List.Nodup.filter _ hnd4
    have hLsub : ∀ j ∈ (succsOf topo.group_nodes t.gidx).filter
        (fun j => s.pred.getD j 0 == 1), j ∈ succsOf topo.group_nodes t.gidx :=
      fun j hj => (List.mem_filter.mp hj).1
    have hLlt : ∀ j ∈ (succsOf topo.group_nodes t.gidx).filter
        (fun j => s.pred.getD j 0 == 1), j < topo.group_nodes.length :=
      fun j hj => hWF.w5 t.gidx hg j (hLsub j hj)
    have hLmem : ∀ i, i ∈ (succsOf topo.group_nodes t.gidx).filter
        (fun j => s.pred.getD j 0 == 1) ↔
        (i ∈ succsOf topo.group_nodes t.gidx ∧ s.pred.getD i 0 = 1) := by
      intro i
      rw [List.mem_filter]
      simp
    refine ⟨?_, ?_, ?_, ?_, ?_, ?_, ?_, ?_, ?_, ?_⟩
    · rw [hrem2, List.length_set]
      exact hI.remLen
    · rw [hplen2]
      exact hI.predLen
    · intro i hi
      rw [hrem2, htr2]
      exact hremset i hi
    · intro k hk
      rw [htr2, hpred2 k, hdone' k, hI.predEq k hk]
      by_cases hks : k ∈ succsOf topo.group_nodes t.gidx
      · rw [if_pos hks]
        have := hstricts k hks
        omega
      · rw [if_neg hks]
        omega
    · intro i hi
      rw [htr2, hq2,
        show (s.trace ++ [t]) ++ (rest ++
            ((((succsOf topo.group_nodes t.gidx).filter
              (fun j => s.pred.getD j 0 == 1)).map
                (tasksOf topo.group_nodes)).flatten)) =
          (s.trace ++ (t :: rest)) ++
            (((succsOf topo.group_nodes t.gidx).filter
              (fun j => s.pred.getD j 0 == 1)).map
                (tasksOf topo.group_nodes)).flatten by simp,
        nodeFilter_append, ← hq, hI.nodeTasks i hi,
        nodeFilter_flatten_blocks hWF hLnodup hLlt i, hdone' i]
      by_cases his : i ∈ succsOf topo.group_nodes t.gidx
      · have hstrict_i := hstricts i his
        have hpi := hppj i his
        rw [if_neg (Nat.ne_of_lt hstrict_i), if_pos his]
        by_cases hp1 : s.pred.getD i 0 = 1
        · rw [if_pos ((hLmem i).mpr ⟨his, hp1⟩),
            if_pos (by omega : doneIn topo.group_nodes s.trace i + 1 =
              indeg topo.group_nodes i)]
          simp
        · rw [if_neg (fun hmem => hp1 ((hLmem i).mp hmem).2),
            if_neg (by omega : ¬(doneIn topo.group_nodes s.trace i + 1 =
              indeg topo.group_nodes i))]
          simp
      · rw [if_neg (fun hmem => his (hLsub i hmem)), if_neg his,
          Nat.add_zero, List.append_nil]
    · intro x hx
      rw [htr2, hq2] at hx
      rcases List.mem_append.mp hx with hx | hx
      · exact hgidx' x hx
      · rcases List.mem_append.mp hx with hx | hx
        · exact hgidxrest x hx
        · rcases List.mem_flatten.mp hx with ⟨bl, hbl, hxbl⟩
          rcases List.mem_map.mp hbl with ⟨j, hj, rfl⟩
          rw [hWF.w2 j (hLlt j hj) x hxbl]
          exact hLlt j hj
    · rw [htc2, htr2, hI.tcntEq, htrlen]
      omega
    · rw [htr2, htrlen]
      omega
    · rw [htr2]
      exact horder2
    · intro e he
      rw [hev2] at he
      rcases List.mem_append.mp he with he | he
      · exact hev_ok1 e he
      · rcases List.mem_map.mp he with ⟨j, hj, rfl⟩
        show 1 ≤ s.pred.getD j 0
        rw [hppj j hj]
        have := hstricts j hj
        omega
  · -- more tasks of the group remain: no release happens
    rw [if_neg hprev] at hs2
    have hcomp_g : completeB topo.group_nodes (s.trace ++ [t]) t.gidx
        = false := by
      unfold completeB
      rw [hcnt' t.gidx, if_pos rfl]
      simp only [beq_eq_false_iff_ne, ne_eq]
      omega
    have hdone_same : ∀ j, doneIn topo.group_nodes (s.trace ++ [t]) j
        = doneIn topo.group_nodes s.trace j := by
      intro j
      apply doneIn_congr
      intro i _
      by_cases hig : i = t.gidx
      · subst hig
        rw [hcomp_g, hcomp_old]
      · exact hcomp_other i hig
    have hrem2 : s2.rem = s.rem.set t.gidx (s.rem.getD t.gidx 0 - 1) := by
      rw [hs2]; rfl
    have hpred2 : s2.pred = s.pred := by rw [hs2]; rfl
    have hq2 : s2.queue = rest := by rw [hs2]; rfl
    have htr2 : s2.trace = s.trace ++ [t] := by rw [hs2]; rfl
    have htc2 : s2.tcnt = s.tcnt - 1 := by rw [hs2]; rfl
    have hev2 : s2.events = s.events ++
        [(⟨false, t.gidx, s.rem.getD t.gidx 0⟩ : DecEvent)] := by
      rw [hs2]; rfl
    refine ⟨?_, ?_, ?_, ?_, ?_, ?_, ?_, ?_, ?_, ?_⟩
    · rw [hrem2, List.length_set]
      exact hI.remLen
    · rw [hpred2]
      exact hI.predLen
    · intro i hi
      rw [hrem2, htr2]
      exact hremset i hi
    · intro k hk
      rw [htr2, hpred2, hdone_same k]
      exact hI.predEq k hk
    · intro i hi
      rw [htr2, hq2,
        show (s.trace ++ [t]) ++ rest = s.trace ++ (t :: rest) by simp,
        ← hq, hI.nodeTasks i hi, hdone_same i]
    · intro x hx
      rw [htr2, hq2] at hx
      rcases List.mem_append.mp hx with hx | hx
      · exact hgidx' x hx
      · exact hgidxrest x hx
    · rw [htc2, htr2, hI.tcntEq, htrlen]
      omega
    · rw [htr2, htrlen]
      omega
    · rw [htr2]
      exact horder2
    · intro e he
      rw [hev2] at he
      exact hev_ok1 e he

/-! ## The full execute cycle -/

theorem run_succ (nodes : List GroupNode) (f : Nat) (s : WState) :
    run nodes (f + 1) s =
      match step nodes s with
      | none => s
      | some s2 => run nodes f s2 := rfl

theorem queue_nil_of_step_none {nodes : List GroupNode} {s : WState}
    (h : step nodes s = none) : s.queue = [] := by
  rcases hq : s.queue with _ | ⟨t, rest⟩
  · rfl
  · rw [step_cons nodes hq] at h
    exact absurd h (by simp)

theorem step_trace_length {nodes : List GroupNode} {s s2 : WState}
    (h : step nodes s = some s2) : s2.trace.length = s.trace.length + 1 := by
  rcases hq : s.queue with _ | ⟨t, rest⟩
  · rw [step_nil nodes hq] at h
    exact absurd h (by simp)
  · rw [step_cons nodes hq] at h
    have hs2 := (Option.some.inj h).symm
    by_cases hprev : s.rem.getD t.gidx 0 = 1
    · rw [if_pos hprev] at hs2
      rw [hs2, propagate_trace]
      show (s.trace ++ [t]).length = _
      simp
    · rw [if_neg hprev] at hs2
      rw [hs2]
      show (s.trace ++ [t]).length = _
      simp

theorem run_inv {topo : Topology} (hWF : WF topo) :
    ∀ (f : Nat) (s : WState), WInv topo.group_nodes s →
      WInv topo.group_nodes (run topo.group_nodes f s) := by
  intro f
  induction f with
  | zero => intro s hI; exact hI
  | succ f ih =>
      intro s hI
      rw [run_succ]
      rcases hstep : step topo.group_nodes s with _ | s2
      · exact hI
      · exact ih s2 (step_inv hWF hI hstep)

theorem run_trace_of_ne_nil (nodes : List GroupNode) :
    ∀ (f : Nat) (s : WState), (run nodes f s).queue ≠ [] →
      (run nodes f s).trace.length = s.trace.length + f := by
  intro f
  induction f with
  | zero => intro s _; rfl
  | succ f ih =>
      intro s hne
      rw [run_succ] at hne ⊢
      rcases hstep : step nodes s with _ | s2 <;> rw [hstep] at hne
      · exact absurd (queue_nil_of_step_none hstep) hne
      · have hne2 : (run nodes f s2).queue ≠ [] := hne
        show (run nodes f s2).trace.length = _
        rw [ih s2 hne2, step_trace_length hstep]
        omega

/-- The invariant holds at the end of a full ready/execute cycle. -/
theorem seq_inv {topo : Topology} (hWF : WF topo) :
    WInv topo.group_nodes (seqExecute topo) :=
  run_inv hWF _ _ (ready_inv hWF)

/-- The execute loop drains the FIFO: at the end of the cycle `try_recv`
fails and the loop exits. -/
theorem seq_queue_nil {topo : Topology} (hWF : WF topo) :
    (seqExecute topo).queue = [] := by
  by_contra hne
  have hne2 : (run topo.group_nodes (taskTotal topo.group_nodes + 1)
      (ready topo)).queue ≠ [] := hne
  have hlen := run_trace_of_ne_nil topo.group_nodes
    (taskTotal topo.group_nodes + 1) (ready topo) hne2
  have hI := seq_inv hWF
  have hle := hI.traceLe
  have hz : (ready topo).trace.length = 0 := rfl
  have hseq : (seqExecute topo).trace.length =
      (ready topo).trace.length + (taskTotal topo.group_nodes + 1) := hlen
  rw [hz] at hseq
  omega

/-- Acyclicity of the frozen successor graph, witnessed by a rank function
that strictly increases along every edge.  Such a function exists exactly
when the (finite) graph has no directed cycle, which is the freeze image of
the author-time group graph being acyclic. -/
def Acyclic (nodes : List GroupNode) (rank : Nat → Nat) : Prop :=
  ∀ i, i < nodes.length → ∀ j ∈ succsOf nodes i, rank i < rank j

/-- Every node is complete at the end of the cycle: Kahn-style strong
induction along the rank function. -/
theorem seq_complete {topo : Topology} (hWF : WF topo) {rank : Nat → Nat}
    (hac : Acyclic topo.group_nodes rank) :
    ∀ i, i < topo.group_nodes.length →
      nodeCnt i (seqExecute topo).trace =
        (tasksOf topo.group_nodes i).length := by
  have hI := seq_inv hWF
  have hqnil := seq_queue_nil hWF
  have main : ∀ r, ∀ i, i < topo.group_nodes.length → rank i < r →
      nodeCnt i (seqExecute topo).trace =
        (tasksOf topo.group_nodes i).length := by
    intro r
    induction r with
    | zero => intro i _ h; omega
    | succ r ih =>
        intro i hi hr
        have hrel : doneIn topo.group_nodes (seqExecute topo).trace i =
            indeg topo.group_nodes i := by
          unfold doneIn indeg
          apply List.countP_congr
          intro x hx
          by_cases hmem : i ∈ succsOf topo.group_nodes x
          · have hxlt := List.mem_range.mp hx
            have hrank : rank x < rank i := hac x hxlt i hmem
            have hcomp : completeB topo.group_nodes
                (seqExecute topo).trace x = true := by
              rw [completeB_true_iff]
              exact ih x hxlt (by omega)
            rw [hcomp]
            simp
          · have hdec : decide (i ∈ succsOf topo.group_nodes x) = false := by
              simpa using hmem
            rw [hdec]
            simp
        have hnt := hI.nodeTasks i hi
        rw [hqnil, List.append_nil, if_pos hrel] at hnt
        unfold nodeCnt
        rw [hnt]
  intro i hi
  exact main (rank i + 1) i hi (Nat.lt_succ_self _)

/-- At the end of the cycle every edge has been accounted for. -/
theorem seq_doneIn {topo : Topology} (hWF : WF topo) {rank : Nat → Nat}
    (hac : Acyclic topo.group_nodes rank) :
    ∀ j, doneIn topo.group_nodes (seqExecute topo).trace j =
      indeg topo.group_nodes j := by
  intro j
  unfold doneIn indeg
  apply List.countP_congr
  intro x hx
  by_cases hmem : j ∈ succsOf topo.group_nodes x
  · have hcomp : completeB topo.group_nodes (seqExecute topo).trace x
        = true := by
      rw [completeB_true_iff]
      exact seq_complete hWF hac x (List.mem_range.mp hx)
    rw [hcomp]
    simp
  · have hdec : decide (j ∈ succsOf topo.group_nodes x) = false := by
      simpa using hmem
    rw [hdec]
    simp

/-- At the end of the cycle the pop log restricted to any node is exactly
that node's task-node list. -/
theorem seq_node_trace {topo : Topology} (hWF : WF topo) {rank : Nat → Nat}
    (hac : Acyclic topo.group_nodes rank) :
    ∀ i, i < topo.group_nodes.length →
      nodeFilter i (seqExecute topo).trace = tasksOf topo.group_nodes i := by
  intro i hi
  have hI := seq_inv hWF
  have hnt := hI.nodeTasks i hi
  rw [seq_queue_nil hWF, List.append_nil, if_pos (seq_doneIn hWF hac i)] at hnt
  exact hnt

/-- The pop log has exactly `task_count` entries at the end of the cycle. -/
theorem seq_trace_length {topo : Topology} (hWF : WF topo) {rank : Nat → Nat}
    (hac : Acyclic topo.group_nodes rank) :
    (seqExecute topo).trace.length = taskTotal topo.group_nodes := by
  have hI := seq_inv hWF
  have hpart := length_eq_sum_nodeCnt topo.group_nodes.length
    (seqExecute topo).trace
    (fun x hx => hI.gidxLt x (List.mem_append_left _ hx))
  have hmap : (List.range topo.group_nodes.length).map
      (fun i => nodeCnt i (seqExecute topo).trace) =
      (List.range topo.group_nodes.length).map
        (fun i => (tasksOf topo.group_nodes i).length) := by
    apply List.map_congr_left
    intro i hi
    exact seq_complete hWF hac i (List.mem_range.mp hi)
  rw [hpart, hmap]
  rfl

theorem getD_mem {α : Type} {l : List α} {i : Nat} {d : α}
    (h : i < l.length) : l.getD i d ∈ l := by
  rw [List.getD_eq_getElem?_getD, List.getElem?_eq_getElem h]
  show l.get ⟨i, h⟩ ∈ l
  exact List.get_mem l i h


theorem occ_nodeFilter (t : TaskNode) :
    ∀ (l : List TaskNode), occ t (nodeFilter t.gidx l) = occ t l := by
  intro l
  induction l with
  | nil => rfl
  | cons a l ih =>
      unfold occ nodeFilter at ih ⊢
      by_cases hat : a = t
      · subst hat
        rw [List.filter_cons, if_pos (by simp), List.filter_cons,
          if_pos (by simp), List.filter_cons, if_pos (by simp)]
        simp only [List.length_cons]
        omega
      · by_cases hag : a.gidx = t.gidx
        · rw [List.filter_cons, if_pos (by simp [hag]), List.filter_cons,
            if_neg (by simp [hat]), List.filter_cons, if_neg (by simp [hat])]
          omega
        · rw [List.filter_cons, if_neg (by simp [hag]), List.filter_cons,
            if_neg (by simp [hat])]
          omega

theorem occ_eq_one_of_nodup_mem {t : TaskNode} :
    ∀ {l : List TaskNode}, l.Nodup → t ∈ l → occ t l = 1 := by
  intro l
  induction l with
  | nil => intro _ h; simp at h
  | cons a l ih =>
      intro hnd hm
      unfold occ
      rcases List.mem_cons.mp hm with heq | hm
      · subst heq
        rw [List.filter_cons, if_pos (by simp)]
        have hzero : (l.filter (fun x => x == t)).length = 0 := by
          rw [List.length_eq_zero, List.filter_eq_nil_iff]
          intro x hx hbeq
          have hxt : x = t := by simpa using hbeq
          exact (List.nodup_cons.mp hnd).1 (hxt ▸ hx)
        simp [hzero]
      · have hne : a ≠ t := fun h => (List.nodup_cons.mp hnd).1 (h ▸ hm)
        rw [List.filter_cons, if_neg (by simp [hne])]
        have := ih (List.nodup_cons.mp hnd).2 hm
        unfold occ at this
        exact this

theorem map_eq_map_range {α β : Type} [Inhabited α] (f : α → β) :
    ∀ (l : List α), l.map f =
      (List.range l.length).map (fun i => f (l.getD i default)) := by
  intro l
  induction l with
  | nil => rfl
  | cons a l ih =>
      rw [List.length_cons, List.range_succ_eq_map, List.map_cons,
        List.map_cons, List.map_map]
      congr 1

/-! ## Claims about the sequential execute cycle -/

/-- C1.  For every topology frozen from an acyclic group graph and every
precedence edge `A → B` of the frozen graph, the sequential ready/execute
cycle pops (and hence invokes) every task node of `A` strictly before any
task node of `B`: whenever position `p` of the pop log holds a `B` task and
position `q` holds an `A` task, `q < p`. -/
theorem C1_tasks_of_predecessor_run_first (gl : List GroupSnap)
    (topo : Topology) (rank : Nat → Nat)
    (hfr : new_from gl = .ok topo)
    (hac : Acyclic topo.group_nodes rank) :
    ∀ A, A < topo.group_nodes.length → ∀ B ∈ succsOf topo.group_nodes A,
      ∀ p q, p < (seqExecute topo).trace.length →
        q < (seqExecute topo).trace.length →
        ((seqExecute topo).trace.getD p default).gidx = B →
        ((seqExecute topo).trace.getD q default).gidx = A →
        q < p := by
  have hWF := freeze_wf hfr
  have hI := seq_inv hWF
  intro A hA B hB p q hp hq hpB hqA
  by_contra hle
  have hpq : p ≤ q := by omega
  have htake := hI.orderOk A hA B hB p hp hpB
  have htot := seq_complete hWF hac A hA
  have hql : q - p < ((seqExecute topo).trace.drop p).length := by
    rw [List.length_drop]
    omega
  have hgetd : ((seqExecute topo).trace.drop p).getD (q - p) default =
      (seqExecute topo).trace.getD q default := by
    rw [List.getD_eq_getElem?_getD, List.getD_eq_getElem?_getD,
      List.getElem?_drop]
    congr 2
    omega
  have hmem : (seqExecute topo).trace.getD q default ∈
      (seqExecute topo).trace.drop p := by
    rw [← hgetd]
    exact getD_mem hql
  have hcnt_drop : 1 ≤ nodeCnt A ((seqExecute topo).trace.drop p) := by
    have hmf : (seqExecute topo).trace.getD q default ∈
        ((seqExecute topo).trace.drop p).filter (fun t => t.gidx == A) :=
      List.mem_filter.mpr ⟨hmem, beq_iff_eq.mpr hqA⟩
    have := List.length_pos_of_mem hmf
    unfold nodeCnt nodeFilter
    omega
  have hsplitcnt : nodeCnt A (seqExecute topo).trace =
      nodeCnt A ((seqExecute topo).trace.take p) +
        nodeCnt A ((seqExecute topo).trace.drop p) := by
    rw [← nodeCnt_append, List.take_append_drop]
  omega

/-- C2.  One sequential ready/execute cycle over a topology frozen from an
acyclic group graph processes exactly the task nodes of the topology: the
pop log restricted to any group node is that node's task-node list, every
popped node belongs to the topology, and each individual task node occurs
exactly once in the log (the worker invokes a popped node exactly when its
handle is live, and every frozen task node's handle is live at freeze
time). -/
theorem C2_every_task_node_exactly_once (gl : List GroupSnap)
    (topo : Topology) (rank : Nat → Nat)
    (hfr : new_from gl = .ok topo)
    (hac : Acyclic topo.group_nodes rank) :
    (∀ i, i < topo.group_nodes.length →
      nodeFilter i (seqExecute topo).trace = tasksOf topo.group_nodes i) ∧
    (∀ x ∈ (seqExecute topo).trace, x.gidx < topo.group_nodes.length) ∧
    (∀ i, i < topo.group_nodes.length → ∀ t ∈ tasksOf topo.group_nodes i,
      occ t (seqExecute topo).trace = 1) := by
  have hWF := freeze_wf hfr
  have hI := seq_inv hWF
  refine ⟨seq_node_trace hWF hac, ?_, ?_⟩
  · intro x hx
    exact hI.gidxLt x (List.mem_append_left _ hx)
  · intro i hi t ht
    have hgid : t.gidx = i := hWF.w2 i hi t ht
    have h1 : occ t (seqExecute topo).trace =
        occ t (nodeFilter t.gidx (seqExecute topo).trace) :=
      (occ_nodeFilter t _).symm
    rw [h1, hgid, seq_node_trace hWF hac i hi]
    exact occ_eq_one_of_nodup_mem (hWF.w3 i hi) ht

/-- C4 (amended).  After a sequential ready/execute cycle over a topology
frozen from an acyclic group graph, the worker's `task_count` is `0` (so
`wait_finish`'s spin on `task_count != 0` returns immediately and the
`execute` loop's drain assertion holds), every node's `remained_task_cnt`
is `0`, and every node's `remained_predecessor_cnt` is `0` — not the
freeze-time predecessor count, which has been consumed by the wavefront
decrements. -/
theorem C4_final_counters_zero (gl : List GroupSnap) (topo : Topology)
    (rank : Nat → Nat) (hfr : new_from gl = .ok topo)
    (hac : Acyclic topo.group_nodes rank) :
    (seqExecute topo).tcnt = 0 ∧
    (∀ i, i < topo.group_nodes.length →
      (seqExecute topo).rem.getD i 0 = 0) ∧
    (∀ j, j < topo.group_nodes.length →
      (seqExecute topo).pred.getD j 0 = 0) := by
  have hWF := freeze_wf hfr
  have hI := seq_inv hWF
  refine ⟨?_, ?_, ?_⟩
  · rw [hI.tcntEq, seq_trace_length hWF hac]
    omega
  · intro i hi
    rw [hI.remEq i hi, seq_complete hWF hac i hi]
    omega
  · intro j hj
    rw [hI.predEq j hj, seq_doneIn hWF hac j]
    omega

/-- C10.  During a sequential ready/execute cycle over a topology frozen
from an acyclic group graph, every `fetch_sub(1)` on a `remained_task_cnt`
or `remained_predecessor_cnt` counter observes a previous value of at least
one, so the unsigned 32-bit counters never wrap below zero. -/
theorem C10_counters_never_underflow (gl : List GroupSnap)
    (topo : Topology) (rank : Nat → Nat)
    (hfr : new_from gl = .ok topo)
    (hac : Acyclic topo.group_nodes rank) :
    ∀ e ∈ (seqExecute topo).events, 1 ≤ e.prev :=
  (seq_inv (freeze_wf hfr)).eventsOk

/-- C3.  Immediately after a successful freeze, every group node holds at
least one task node; a live group whose live task set is empty holds exactly
the single sentinel task node; and the topology's `task_count` is the sum of
`remained_task_cnt` over all group nodes. -/
theorem C3_freeze_invariants (gl : List GroupSnap) (topo : Topology)
    (hfr : new_from gl = .ok topo) :
    (∀ i, i < topo.group_nodes.length → tasksOf topo.group_nodes i ≠ []) ∧
    (∀ i, i < topo.group_nodes.length →
      ((liveGroups gl).getD i default).tasks.filter (fun t => !t.released)
        = [] →
      tasksOf topo.group_nodes i = [⟨i, 0, true, false⟩]) ∧
    topo.task_count =
      (topo.group_nodes.map (fun nd => nd.remained_task_cnt)).sum := by
  have hWF := freeze_wf hfr
  refine ⟨hWF.w1, ?_, ?_⟩
  · intro i hi hempty
    have htopo := new_from_ok hfr
    have hn : topo.group_nodes = fillNodes gl := by rw [htopo]
    have hi2 : i < (liveGroups gl).length := by
      rw [← length_fillNodes gl, ← hn]
      exact hi
    rw [hn, tasksOf_fillNodes gl hi2]
    unfold mkTaskNodes
    rw [if_pos (by rw [hempty]; rfl)]
  · have h3 : topo.group_nodes.map (fun nd => nd.remained_task_cnt) =
        (List.range topo.group_nodes.length).map
          (fun i => (tasksOf topo.group_nodes i).length) := by
      rw [map_eq_map_range]
      apply List.map_congr_left
      intro i hi
      exact hWF.w7 i (List.mem_range.mp hi)
    rw [h3, hWF.w9]
    rfl

/-- C5.  `Group::precede` returns `InvalidChaining` exactly when the
argument handle's cached id is the caller's own id or already occurs in one
of the caller's edge lists; `InvalidGroupHandle` exactly when those checks
pass but the handle does not resolve; otherwise it succeeds, appending the
handle to the caller's `success_groups` and the caller's handle to the
target's `precede_groups`; and on every error path both groups are returned
unchanged. -/
theorem C5_precede_contract (self : GroupRawM) (hid : Nat)
    (target : Option GroupRawM) :
    ((precede self hid target).err = some TaskError.InvalidChaining ↔
      (self.gid = hid ∨ is_contains_id self hid = true)) ∧
    ((precede self hid target).err = some TaskError.InvalidGroupHandle ↔
      (self.gid ≠ hid ∧ is_contains_id self hid = false ∧ target = none)) ∧
    ((precede self hid target).err = none ↔
      (self.gid ≠ hid ∧ is_contains_id self hid = false ∧ target ≠ none)) ∧
    ((precede self hid target).err ≠ none →
      (precede self hid target).self = self ∧
      (precede self hid target).other = target) ∧
    (∀ o, target = some o → self.gid ≠ hid →
      is_contains_id self hid = false →
      precede self hid target =
        ⟨{ self with chains :=
            { self.chains with
                success_groups := self.chains.success_groups ++ [hid] } },
          some { o with chains :=
            { o.chains with
                precede_groups := o.chains.precede_groups ++ [self.gid] } },
          none⟩) := by
  rcases target with _ | o <;>
    by_cases h1 : self.gid = hid <;>
      by_cases h2 : is_contains_id self hid = true <;>
        simp_all [precede]

/-- C6.  `Topology::new_from` fails with `NoValidatedGroups` exactly when
the group list is empty or every handle in it is released, and succeeds for
every list containing at least one non-released handle. -/
theorem C6_build_errors (gl : List GroupSnap) :
    (new_from gl = .error TaskError.NoValidatedGroups ↔
      (gl = [] ∨ ∀ g ∈ gl, g.released = true)) ∧
    ((∃ g ∈ gl, g.released = false) → ∃ t, new_from gl = .ok t) := by
  unfold new_from
  by_cases hc : (gl.isEmpty || gl.all (fun g => g.released)) = true
  · rw [if_pos hc]
    rcases Bool.or_eq_true_iff.mp hc with hc2 | hc2
    · constructor
      · constructor
        · intro _
          left
          exact List.isEmpty_iff.mp hc2
        · intro _
          rfl
      · intro ⟨g, hg, _⟩
        rw [List.isEmpty_iff.mp hc2] at hg
        simp at hg
    · constructor
      · constructor
        · intro _
          right
          exact List.all_eq_true.mp hc2
        · intro _
          rfl
      · intro ⟨g, hg, hrel⟩
        rw [List.all_eq_true.mp hc2 g hg] at hrel
        exact absurd hrel (by simp)
  · rw [if_neg hc]
    constructor
    · constructor
      · intro h
        exact absurd h (by simp)
      · intro hcase
        exfalso
        apply hc
        rcases hcase with rfl | hall
        · rfl
        · rw [Bool.or_eq_true_iff]
          right
          exact List.all_eq_true.mpr hall
    · intro _
      exact ⟨_, rfl⟩

/-- C7.  The executor's `execute` rejects with `AlreadyExecuted` when
running, then `InvalidGroupHandle` when no topology is attached, then
`EmptyWorker` when no worker is attached, and on success sets
`is_executed`; `wait_finish` rejects with `AlreadyIdle` when idle, then
`EmptyWorker` when no worker is attached, and on success clears
`is_executed`.  Every error path returns the executor unchanged. -/
theorem C7_executor_state_machine (e : ExecutorSt) :
    (e.is_executed = true →
      Executor.execute e = (e, some TaskError.AlreadyExecuted)) ∧
    (e.is_executed = false → e.topology = none →
      Executor.execute e = (e, some TaskError.InvalidGroupHandle)) ∧
    (e.is_executed = false → e.topology ≠ none → e.has_worker = false →
      Executor.execute e = (e, some TaskError.EmptyWorker)) ∧
    (e.is_executed = false → e.topology ≠ none → e.has_worker = true →
      Executor.execute e = ({ e with is_executed := true }, none)) ∧
    (e.is_executed = false →
      Executor.wait_finish e = (e, some TaskError.AlreadyIdle)) ∧
    (e.is_executed = true → e.has_worker = false →
      Executor.wait_finish e = (e, some TaskError.EmptyWorker)) ∧
    (e.is_executed = true → e.has_worker = true →
      Executor.wait_finish e = ({ e with is_executed := false }, none)) := by
  obtain ⟨top, wk, ex⟩ := e
  rcases top with _ | t <;> cases wk <;> cases ex <;>
    simp [Executor.execute, Executor.wait_finish]

/-- C8.  The raw closure and immutable-method constructors assert that the
task name is non-empty (`none` models the assertion failure), but
`TaskRaw::from_method_mut` has no such assertion and silently constructs a
task with an empty name: the code diverges from the documented contract at
`from_method_mut("", ...)`. -/
theorem C8_from_method_mut_missing_assert :
    from_closure "" = none ∧ from_method "" = none ∧
    from_method_mut "" = some ⟨"", true⟩ :=
  ⟨rfl, rfl, rfl⟩

/-- C9.  Despite their names, `GroupRaw::has_successors` returns `true`
exactly when the successor list is empty, and `GroupRaw::has_predecessors`
returns `true` exactly when the predecessor list is empty. -/
theorem C9_has_predicates_report_absence (g : GroupRawM) :
    (has_successors g = true ↔ g.chains.success_groups = []) ∧
    (has_predecessors g = true ↔ g.chains.precede_groups = []) := by
  constructor <;>
    simp [has_successors, has_predecessors, List.isEmpty_iff]

/-! ## Concrete instances -/

/-- Two-group chain (group 10 with one task precedes group 11 with one
task), used by the C1 witness. -/
def c1Gl : List GroupSnap :=
  [⟨10, false, [⟨false⟩], [⟨11, false⟩]⟩, ⟨11, false, [⟨false⟩], []⟩]

/-- The topology frozen from `c1Gl`. -/
def c1Topo : Topology :=
  ⟨[⟨10, [⟨0, 0, false, false⟩], 1, [1], 0⟩,
    ⟨11, [⟨1, 0, false, false⟩], 1, [], 1⟩], 2, [0]⟩

theorem C1_witness :
    new_from c1Gl = .ok c1Topo ∧
    Acyclic c1Topo.group_nodes (fun i => i) ∧
    0 < c1Topo.group_nodes.length ∧
    1 ∈ succsOf c1Topo.group_nodes 0 ∧
    1 < (seqExecute c1Topo).trace.length ∧
    0 < (seqExecute c1Topo).trace.length ∧
    ((seqExecute c1Topo).trace.getD 1 default).gidx = 1 ∧
    ((seqExecute c1Topo).trace.getD 0 default).gidx = 0 ∧
    0 < 1 :=
  ⟨rfl, by unfold Acyclic; decide, by decide, by decide, by decide,
    by decide, rfl, rfl,
    C1_tasks_of_predecessor_run_first c1Gl c1Topo (fun i => i) rfl
      (by unfold Acyclic; decide) 0 (by decide) 1 (by decide) 1 0
      (by decide) (by decide) rfl rfl⟩

/-- Two-group chain used by the C2 witness. -/
def c2Gl : List GroupSnap :=
  [⟨10, false, [⟨false⟩], [⟨11, false⟩]⟩, ⟨11, false, [⟨false⟩], []⟩]

/-- The topology frozen from `c2Gl`. -/
def c2Topo : Topology :=
  ⟨[⟨10, [⟨0, 0, false, false⟩], 1, [1], 0⟩,
    ⟨11, [⟨1, 0, false, false⟩], 1, [], 1⟩], 2, [0]⟩

theorem C2_witness :
    new_from c2Gl = .ok c2Topo ∧
    Acyclic c2Topo.group_nodes (fun i => i) ∧
    ((∀ i, i < c2Topo.group_nodes.length →
      nodeFilter i (seqExecute c2Topo).trace = tasksOf c2Topo.group_nodes i) ∧
    (∀ x ∈ (seqExecute c2Topo).trace, x.gidx < c2Topo.group_nodes.length) ∧
    (∀ i, i < c2Topo.group_nodes.length →
      ∀ t ∈ tasksOf c2Topo.group_nodes i,
        occ t (seqExecute c2Topo).trace = 1)) :=
  ⟨rfl, by unfold Acyclic; decide,
    C2_every_task_node_exactly_once c2Gl c2Topo (fun i => i) rfl
      (by unfold Acyclic; decide)⟩

/-- A single live group whose only task handle is released: the freeze must
fall back to the sentinel empty task.  Used by the C3 witness. -/
def c3Gl : List GroupSnap := [⟨0, false, [⟨true⟩], []⟩]

/-- The topology frozen from `c3Gl`. -/
def c3Topo : Topology := ⟨[⟨0, [⟨0, 0, true, false⟩], 1, [], 0⟩], 1, [0]⟩

theorem C3_witness :
    new_from c3Gl = .ok c3Topo ∧
    ((∀ i, i < c3Topo.group_nodes.length →
      tasksOf c3Topo.group_nodes i ≠ []) ∧
    (∀ i, i < c3Topo.group_nodes.length →
      ((liveGroups c3Gl).getD i default).tasks.filter (fun t => !t.released)
        = [] →
      tasksOf c3Topo.group_nodes i = [⟨i, 0, true, false⟩]) ∧
    c3Topo.task_count =
      (c3Topo.group_nodes.map (fun nd => nd.remained_task_cnt)).sum) :=
  ⟨rfl, C3_freeze_invariants c3Gl c3Topo rfl⟩

/-- Two-group chain used by the C4 witness and counterexample. -/
def c4Gl : List GroupSnap :=
  [⟨10, false, [⟨false⟩], [⟨11, false⟩]⟩, ⟨11, false, [⟨false⟩], []⟩]

/-- The topology frozen from `c4Gl`.  Node 1 has freeze-time predecessor
count 1. -/
def c4Topo : Topology :=
  ⟨[⟨10, [⟨0, 0, false, false⟩], 1, [1], 0⟩,
    ⟨11, [⟨1, 0, false, false⟩], 1, [], 1⟩], 2, [0]⟩

/-- The original C4 claim fails: on the two-group chain the executed cycle
leaves node 1's `remained_predecessor_cnt` at `0`, not at its freeze-time
value `1`. -/
theorem C4_counterexample_pred_consumed :
    new_from c4Gl = .ok c4Topo ∧
    Acyclic c4Topo.group_nodes (fun i => i) ∧
    (c4Topo.group_nodes.getD 1 default).remained_predecessor_cnt = 1 ∧
    (seqExecute c4Topo).pred.getD 1 0 = 0 ∧
    ¬((seqExecute c4Topo).pred.getD 1 0 =
      (c4Topo.group_nodes.getD 1 default).remained_predecessor_cnt) :=
  ⟨rfl, by unfold Acyclic; decide, rfl, rfl, by decide⟩

theorem C4_witness :
    new_from c4Gl = .ok c4Topo ∧
    Acyclic c4Topo.group_nodes (fun i => i) ∧
    ((seqExecute c4Topo).tcnt = 0 ∧
    (∀ i, i < c4Topo.group_nodes.length →
      (seqExecute c4Topo).rem.getD i 0 = 0) ∧
    (∀ j, j < c4Topo.group_nodes.length →
      (seqExecute c4Topo).pred.getD j 0 = 0)) :=
  ⟨rfl, by unfold Acyclic; decide,
    C4_final_counters_zero c4Gl c4Topo (fun i => i) rfl
      (by unfold Acyclic; decide)⟩

/-- Two-group chain used by the C10 witness. -/
def c10Gl : List GroupSnap :=
  [⟨10, false, [⟨false⟩], [⟨11, false⟩]⟩, ⟨11, false, [⟨false⟩], []⟩]

/-- The topology frozen from `c10Gl`. -/
def c10Topo : Topology :=
  ⟨[⟨10, [⟨0, 0, false, false⟩], 1, [1], 0⟩,
    ⟨11, [⟨1, 0, false, false⟩], 1, [], 1⟩], 2, [0]⟩

theorem C10_witness :
    new_from c10Gl = .ok c10Topo ∧
    Acyclic c10Topo.group_nodes (fun i => i) ∧
    (⟨false, 0, 1⟩ : DecEvent) ∈ (seqExecute c10Topo).events ∧
    1 ≤ (⟨false, 0, 1⟩ : DecEvent).prev :=
  ⟨rfl, by unfold Acyclic; decide, by decide,
    C10_counters_never_underflow c10Gl c10Topo (fun i => i) rfl
      (by unfold Acyclic; decide) ⟨false, 0, 1⟩ (by decide)⟩

end Kannon
